import Mathlib

/-!
Verification of the call-graph construction core of phasar's `LLVMBasedICFG`
(`lib/PhasarLLVM/ControlFlow/LLVMBasedICFG.cpp`) and of the
`MapFactsAlongsideCallSite` flow function
(`include/phasar/PhasarLLVM/DataFlowSolver/IfdsIde/LLVMFlowFunctions.h`).

The C++ code is shallowly embedded: LLVM handles (`llvm::Function *`,
`llvm::Instruction *`, types) become opaque natural-number identities whose
relevant attributes are supplied by an environment record, the boost graph
becomes an explicit vertex/edge list, LLVM's `DenseMap`s become association
lists, and the `do/while` fixed-point loop is driven by explicit fuel.
External collaborators that are not part of the sampled sources (the resolver
family, `getReceiverType`, `getVFTIndex`, the type hierarchy and the IRDB
lookups) are modelled as parameters of the environment.
-/

namespace Phasar

/-- Opaque identity of an `llvm::Function *` (equality is pointer identity). -/
abbrev Func := Nat

/-- Opaque identity of an `llvm::Instruction *`. -/
abbrev Inst := Nat

/-- Opaque identity of an LLVM struct type (receiver types). -/
abbrev Ty := Nat

/-- Vertex descriptor of the boost call graph (`vertex_t`). -/
abbrev vertex_t := Nat

/-- Shape of the called operand of a `llvm::CallBase`, as inspected by
`Builder::processFunction`: `getCalledFunction()` for the direct case, and
for the indirect case the name (if any) of
`getCalledOperand()->stripPointerCasts()` together with whether that stripped
operand is an `llvm::InlineAsm`. -/
structure CallShape where
  calledFunction : Option Func
  strippedName : Option String
  strippedIsInlineAsm : Bool
deriving DecidableEq, Repr

/-- Instruction kinds the builder distinguishes: call-like instructions
(`llvm::CallBase`) carrying their call shape, and every other instruction. -/
inductive InstKind where
  | callBase (shape : CallShape)
  | other
deriving DecidableEq, Repr

/-- The slice of the `ProjectIRDB` interface consumed by the sampled code,
together with the per-instruction attributes the code reads off LLVM. -/
structure IRDB where
  allFunctions : List Func
  isDeclaration : Func → Bool
  hasName : Func → Bool
  funcName : Func → String
  getFunctionDefinition : String → Option Func
  getFunction : String → Option Func
  instructions : Func → List Inst
  instParent : Inst → Func
  instKind : Inst → InstKind

/-- Environment of `LLVMBasedICFG::Builder`: the IRDB plus the external
helpers used by `internalIsVirtualFunctionCall`.

Modelled from the spec: `getReceiverType`, `getVFTIndex` (from
`LLVMShorthands`/type-hierarchy utilities) and `LLVMTypeHierarchy` are not
under the sampled sources; §4.2 of the spec describes them as: a receiver
operand identified from the call's ABI shape, a vtable index extracted from
the call's indexing sequence, and type-hierarchy membership/vtable tests. -/
structure Ctx where
  irdb : IRDB
  getReceiverType : Inst → Option Ty
  getVFTIndex : Inst → Int
  hasType : Ty → Bool
  hasVFTable : Ty → Bool

/-- One invocation's worth of resolver answers.

Modelled from the spec: the `Resolver` family lives outside the sampled
sources; §4.2 specifies `resolveVirtualCall`/`resolveFunctionPointer` as
returning a set of candidate callee functions (modelled as a duplicate-free
list; set-ness is a hypothesis where proofs count elements). -/
structure Resolver where
  resolveVirtualCall : Inst → List Func
  resolveFunctionPointer : Inst → List Func

/-- Resolver lifecycle hooks, recorded as an event trace so that the calling
sequence of `preCall`/`resolve*`/`handlePossibleTargets`/`postCall`/`otherInst`
performed by the builder is observable. -/
inductive HookEvent where
  | preCall (n : Inst)
  | resolveVirtualCall (n : Inst)
  | resolveFunctionPointer (n : Inst)
  | handlePossibleTargets (n : Inst)
  | postCall (n : Inst)
  | otherInst (n : Inst)
deriving DecidableEq, Repr

/-- An edge of the call graph: source vertex, target vertex and the call site
(`EdgeProperties::CS`) at which it was observed. -/
structure Edge where
  src : vertex_t
  tgt : vertex_t
  cs : Inst
deriving DecidableEq, Repr

/-- The boost `bidigraph_t`: vertices carry their function
(`VertexProperties::F`, the vertex descriptor is the list index), edges carry
their call site. -/
structure CallGraph where
  vertFunc : List Func
  edges : List Edge
deriving DecidableEq, Repr

/-- Modelled from the spec: the graph type `bidigraph_t` itself is declared in
`LLVMBasedICFG.h`, which is not among the sampled sources; spec §4.1 specifies
`addEdge` with duplicate suppression by the `(caller, callee, site)` triple
("a second call with identical triple is a no-op"). -/
def CallGraph.addEdge (cg : CallGraph) (e : Edge) : CallGraph :=
  if e ∈ cg.edges then cg else { cg with edges := cg.edges ++ [e] }

/-- The mutable state of `LLVMBasedICFG::Builder` during construction:
the graph under construction, `FunctionVertexMap`, `VisitedFunctions`,
`FunctionWL`, `IndirectCalls`, and the observable trace of resolver hooks. -/
structure BuilderState where
  cg : CallGraph
  functionVertexMap : List (Func × vertex_t)
  visitedFunctions : List Func
  functionWL : List Func
  indirectCalls : List (Inst × Nat)
  trace : List HookEvent
deriving DecidableEq, Repr

/-- Lookup in `FunctionVertexMap` (first match of an association list). -/
def lookupFvm : List (Func × vertex_t) → Func → Option vertex_t
  | [], _ => none
  | p :: rest, f => if p.1 = f then some p.2 else lookupFvm rest f

/-- Lookup in the `IndirectCalls` map. -/
def icLookup : List (Inst × Nat) → Inst → Option Nat
  | [], _ => none
  | p :: rest, n => if p.1 = n then some p.2 else icLookup rest n

/-- `IndirectCalls[n] = c`: update the entry if present, insert otherwise
(the semantics of `llvm::DenseMap::operator[]` followed by assignment). -/
def icSet : List (Inst × Nat) → Inst → Nat → List (Inst × Nat)
  | [], n, c => [(n, c)]
  | p :: rest, n, c => if p.1 = n then (n, c) :: rest else p :: icSet rest n c

/-- `IndirectCalls[n]` as an lvalue: reading inserts a zero entry when the key
is absent (the semantics of `llvm::DenseMap::operator[]`). -/
def icRef (l : List (Inst × Nat)) (n : Inst) : Nat × List (Inst × Nat) :=
  match icLookup l n with
  | some c => (c, l)
  | none => (0, icSet l n 0)

/-- `FunctionVertexMap->try_emplace(F, vertex_t{})` followed, on insertion, by
`boost::add_vertex(VertexProperties(F), CallGraph)`: returns the (existing or
fresh) vertex of `f` and the updated state. -/
def getOrAddVertex (st : BuilderState) (f : Func) : vertex_t × BuilderState :=
  match lookupFvm st.functionVertexMap f with
  | some v => (v, st)
  | none =>
    let v := st.cg.vertFunc.length
    (v, { st with
            cg := { st.cg with vertFunc := st.cg.vertFunc ++ [f] },
            functionVertexMap := st.functionVertexMap ++ [(f, v)] })

/-- Append hook events to the observable trace. -/
def addTrace (st : BuilderState) (evs : List HookEvent) : BuilderState :=
  { st with trace := st.trace ++ evs }

/-- The per-target body shared by `processFunction` and
`constructDynamicCall`: ensure a vertex for the target, add the edge from the
caller's vertex labelled with the call site, and push the target onto
`FunctionWL`. -/
def addTargetEdge (v : vertex_t) (cs : Inst) (st : BuilderState) (f : Func) :
    BuilderState :=
  let p := getOrAddVertex st f
  { p.2 with
      cg := p.2.cg.addEdge ⟨v, p.1, cs⟩,
      functionWL := p.2.functionWL ++ [f] }

/-- Iterated `addTargetEdge` over a list of resolved targets. -/
def addTargets (v : vertex_t) (cs : Inst) (st : BuilderState)
    (fs : List Func) : BuilderState :=
  fs.foldl (addTargetEdge v cs) st

/-- Static resolution of a call site in `processFunction`:
`CS->getCalledFunction()` if non-null, otherwise the IRDB lookup of the name
of the stripped called operand. -/
def staticTarget (irdb : IRDB) (sh : CallShape) : Option Func :=
  match sh.calledFunction with
  | some f => some f
  | none =>
    match sh.strippedName with
    | none => none
    | some s => irdb.getFunction s

/-- `internalIsVirtualFunctionCall(Inst, TH)`: the call site is virtual iff it
is a `CallBase`, a receiver type exists, the type hierarchy knows it, the type
has a vtable, and the extracted vtable index is non-negative. -/
def internalIsVirtualFunctionCall (C : Ctx) (n : Inst) : Bool :=
  match C.irdb.instKind n with
  | .other => false
  | .callBase _ =>
    match C.getReceiverType n with
    | none => false
    | some t =>
      if !C.hasType t then false
      else if !C.hasVFTable t then false
      else decide (0 ≤ C.getVFTIndex n)

/-- `LLVMBasedICFG::isVirtualFunctionCallImpl` delegates to
`internalIsVirtualFunctionCall`. -/
def isVirtualFunctionCallImpl (C : Ctx) (n : Inst) : Bool :=
  internalIsVirtualFunctionCall C n

/-- The resolver answer `constructDynamicCall` obtains for a site: the result
of `resolveVirtualCall` when the site passes the virtual-call test, of
`resolveFunctionPointer` otherwise. -/
def chosenAnswer (C : Ctx) (R : Resolver) (cs : Inst) : List Func :=
  if internalIsVirtualFunctionCall C cs then R.resolveVirtualCall cs
  else R.resolveFunctionPointer cs

/-- The body of the instruction loop of `Builder::processFunction`, for one
instruction `n` of the function whose vertex is `v`. The boolean accumulator
is `FixpointReached`. On the static path the single possible target receives
`handlePossibleTargets`, an edge, a worklist entry and then `postCall`; the
inline-assembly and indirect paths `continue` after `preCall` (the indirect
path recording `IndirectCalls[CS] = 0` and clearing `FixpointReached`). -/
def processInst (C : Ctx) (v : vertex_t) (acc : Bool × BuilderState)
    (n : Inst) : Bool × BuilderState :=
  match C.irdb.instKind n with
  | .other => (acc.1, addTrace acc.2 [.otherInst n])
  | .callBase sh =>
    let st0 := addTrace acc.2 [.preCall n]
    match staticTarget C.irdb sh with
    | some f =>
      let st1 := addTrace st0 [.handlePossibleTargets n]
      let st2 := addTargetEdge v n st1 f
      (acc.1, addTrace st2 [.postCall n])
    | none =>
      if sh.strippedIsInlineAsm then (acc.1, st0)
      else
        (false, { st0 with indirectCalls := icSet st0.indirectCalls n 0 })

/-- `Builder::processFunction`: declarations and already-visited functions are
skipped (returning `FixpointReached = true`); otherwise the function is marked
visited, its vertex is ensured, and its instructions are walked in program
order. -/
def processFunction (C : Ctx) (st : BuilderState) (F : Func) :
    Bool × BuilderState :=
  if C.irdb.isDeclaration F || F ∈ st.visitedFunctions then (true, st)
  else
    let st0 := { st with visitedFunctions := st.visitedFunctions ++ [F] }
    let p := getOrAddVertex st0 F
    (C.irdb.instructions F).foldl (processInst C p.1) (true, p.2)

/-- The target functions already sitting on out-edges of vertex `v` that are
labelled with call site `cs` (the set `constructDynamicCall` erases from the
resolver's answer before adding edges). -/
def siteTgtFnsAt (st : BuilderState) (v : vertex_t) (cs : Inst) : List Func :=
  (st.cg.edges.filter fun e => e.src == v && e.cs == cs).map
    fun e => st.cg.vertFunc.getD e.tgt 0

/-- `Builder::constructDynamicCall`. Returns `none` when the caller's vertex
is missing (`std::terminate()`); otherwise `some (FoundNewTargets, state')`.
For a `CallBase` site: `preCall`, resolve (virtual or function-pointer by the
virtual-call test), then if the prior count is not below the answer size
return with no new targets; otherwise bump the count, erase already-connected
targets, `handlePossibleTargets`, add an edge and worklist entry per remaining
target, and `postCall`. Non-`CallBase` sites get `otherInst`. -/
def constructDynamicCall (C : Ctx) (R : Resolver) (st : BuilderState)
    (cs : Inst) : Option (Bool × BuilderState) :=
  match lookupFvm st.functionVertexMap (C.irdb.instParent cs) with
  | none => none
  | some v =>
    match C.irdb.instKind cs with
    | .other => some (false, addTrace st [.otherInst cs])
    | .callBase _ =>
      let st0 := addTrace st [.preCall cs]
      let isVirt := internalIsVirtualFunctionCall C cs
      let possibleTargets :=
        if isVirt then R.resolveVirtualCall cs else R.resolveFunctionPointer cs
      let st1 := addTrace st0
        [if isVirt then .resolveVirtualCall cs else .resolveFunctionPointer cs]
      let r := icRef st1.indirectCalls cs
      if r.1 < possibleTargets.length then
        let st2 := { st1 with indirectCalls := icSet r.2 cs possibleTargets.length }
        let remaining := possibleTargets.filter fun f => decide (f ∉ siteTgtFnsAt st2 v cs)
        let st3 := addTrace st2 [.handlePossibleTargets cs]
        let st4 := addTargets v cs st3 remaining
        some (true, addTrace st4 [.postCall cs])
      else
        some (false, { st1 with indirectCalls := r.2 })

/-- The worklist-draining inner loop of `Builder::buildCallGraph`
(`while (!FunctionWL.empty())`), with explicit fuel; `pop_back_val` removes
from the back. Returns `none` when the fuel runs out. -/
def drainWL (C : Ctx) : Nat → Bool → BuilderState → Option (Bool × BuilderState)
  | 0, fx, st => if st.functionWL.isEmpty then some (fx, st) else none
  | fuel + 1, fx, st =>
    match st.functionWL.getLast? with
    | none => some (fx, st)
    | some F =>
      let st' := { st with functionWL := st.functionWL.dropLast }
      let r := processFunction C st' F
      drainWL C fuel (fx && r.1) r.2

/-- The indirect-call pass of `Builder::buildCallGraph`
(`for (auto [CS, _] : IndirectCalls) FixpointReached &= !constructDynamicCall`),
over a snapshot of the recorded sites. -/
def dynPass (C : Ctx) (R : Resolver) :
    List Inst → Bool → BuilderState → Option (Bool × BuilderState)
  | [], fx, st => some (fx, st)
  | cs :: rest, fx, st =>
    match constructDynamicCall C R st cs with
    | none => none
    | some r => dynPass C R rest (fx && !r.1) r.2

/-- The outer `do { ... } while (!FixpointReached)` loop of
`Builder::buildCallGraph`, with explicit fuel. The resolver is indexed by the
outer-iteration counter, modelling the statefully evolving resolver (the OTF
variant grows its points-to view between passes). -/
def buildLoop (C : Ctx) (RSeq : Nat → Resolver) :
    Nat → Nat → Nat → BuilderState → Option BuilderState
  | 0, _, _, _ => none
  | fuel + 1, wlFuel, i, st =>
    match drainWL C wlFuel true st with
    | none => none
    | some r1 =>
      match dynPass C (RSeq i) (r1.2.indirectCalls.map Prod.fst) r1.1 r1.2 with
      | none => none
      | some (true, st2) => some st2
      | some (false, st2) => buildLoop C RSeq fuel wlFuel (i + 1) st2

/-- The soundness tag (`psr::Soundness`). Modelled from the spec:
`Soundness.h` is not among the sampled sources; §6 enumerates
`{Soundy, Sound, Unsound}` plus a rejected `Invalid`. -/
inductive Soundness where
  | Invalid
  | Sound
  | Soundy
  | Unsound
deriving DecidableEq, Repr

/-- `Builder::buildCallGraph(Soundness S)`: the `Soundness` argument is taken
but the loop body never reads it (the parameter is `/*S*/` in the source). -/
def buildCallGraph (C : Ctx) (RSeq : Nat → Resolver) (_S : Soundness)
    (fuel wlFuel : Nat) (st : BuilderState) : Option BuilderState :=
  buildLoop C RSeq fuel wlFuel 0 st

/-- The builder state at the start of `buildCallGraph`: empty graph, maps and
trace; the worklist holds the seeds placed by `initGlobalsAndWorkList`. -/
def initState (seeds : List Func) : BuilderState :=
  { cg := { vertFunc := [], edges := [] },
    functionVertexMap := [],
    visitedFunctions := [],
    functionWL := seeds,
    indirectCalls := [],
    trace := [] }

/-- `Builder::initEntryPoints`. Entries are `llvm::Function *` values, so an
entry may be null (`Option Func`): in the `__ALL__` branch the result of
`getFunctionDefinition` is pushed unconditionally, while in the named branch a
failed lookup logs a warning (collected in the second component) and is
skipped. -/
def initEntryPoints (irdb : IRDB) (entryPoints : List String) :
    List (Option Func) × List String :=
  if entryPoints = ["__ALL__"] then
    ((irdb.allFunctions.filter fun f =>
        !irdb.isDeclaration f && irdb.hasName f).map
      fun f => irdb.getFunctionDefinition (irdb.funcName f), [])
  else
    entryPoints.foldl
      (fun acc ep =>
        match irdb.getFunctionDefinition ep with
        | none => (acc.1, acc.2 ++ [ep])
        | some f => (acc.1 ++ [some f], acc.2))
      ([], [])

/-- `LLVMBasedICFG::getCalleesOfCallAtImpl`: for a non-`CallBase` instruction
or an instruction whose enclosing function has no vertex, the empty list;
otherwise the target functions of the out-edges of the enclosing function's
vertex whose call-site label equals the instruction. -/
def getCalleesOfCallAtImpl (C : Ctx) (cg : CallGraph)
    (functionVertexMap : List (Func × vertex_t)) (n : Inst) : List Func :=
  match C.irdb.instKind n with
  | .other => []
  | .callBase _ =>
    match lookupFvm functionVertexMap (C.irdb.instParent n) with
    | none => []
    | some v =>
      (cg.edges.filter fun e => e.src == v && e.cs == n).map
        fun e => cg.vertFunc.getD e.tgt 0

/-- Opaque identity of an IFDS/IDE dataflow fact (`const llvm::Value *`). -/
abbrev Val := Nat

/-- `MapFactsAlongsideCallSite<Container>::computeTargets`: the zero-value
test is `LLVMZeroValue::getInstance()->isLLVMZeroValue`, modelled as a
predicate parameter; `CB` and the construction-time predicate are captured
fields. The branch structure mirrors the source: non-zero facts propagate,
facts not involved per the predicate propagate, zero facts propagate, and the
residual branch kills. -/
def computeTargetsAlongsideCallSite (isLLVMZeroValue : Val → Bool)
    (CB : Inst) (Predicate : Inst → Val → Bool) (Source : Val) : List Val :=
  if !isLLVMZeroValue Source then [Source]
  else if !Predicate CB Source then [Source]
  else if isLLVMZeroValue Source then [Source]
  else []

/-- The call-graph algorithm selector (`CallGraphAnalysisType`). Modelled from
the spec: the enumeration lives outside the sampled sources; §6 lists
`{NORESOLVE, CHA, RTA, DTA, VTA, OTF}`. -/
inductive CallGraphAnalysisType where
  | NORESOLVE
  | CHA
  | RTA
  | DTA
  | VTA
  | OTF
deriving DecidableEq, Repr

/-- The arguments the `LLVMBasedICFG` constructor passes to
`Resolver::create(CGType, IRDB, B.TH, this, B.PT.get())` — call-graph type,
IRDB, type hierarchy, the ICFG under construction, and points-to info,
each an opaque reference. -/
structure ResolverCreateArgs where
  cgType : CallGraphAnalysisType
  irdbRef : Nat
  thRef : Option Nat
  icfgRef : Nat
  ptRef : Option Nat
deriving DecidableEq, Repr

/-- The observable outcome of the `LLVMBasedICFG` constructor: what was handed
to `Resolver::create`, and the state `buildCallGraph` produced. -/
structure ConstructorOutcome where
  resolverArgs : ResolverCreateArgs
  built : Option BuilderState
deriving DecidableEq, Repr

/-- The `LLVMBasedICFG` constructor, restricted to the dataflow of its
`Soundness` argument: `Resolver::create` is invoked without it, the
constructor never stores it, and it is forwarded only to `buildCallGraph`,
whose loop ignores it. -/
def llvmBasedICFGConstruct (C : Ctx) (RSeq : Nat → Resolver)
    (cgType : CallGraphAnalysisType) (irdbRef : Nat) (thRef : Option Nat)
    (icfgRef : Nat) (ptRef : Option Nat) (S : Soundness) (seeds : List Func)
    (fuel wlFuel : Nat) : ConstructorOutcome :=
  { resolverArgs :=
      { cgType := cgType, irdbRef := irdbRef, thRef := thRef,
        icfgRef := icfgRef, ptRef := ptRef },
    built := buildCallGraph C RSeq S fuel wlFuel (initState seeds) }

/-- Out-edges of the caller's vertex of site `n` labelled `n`: the lookup goes
through `FunctionVertexMap` at `n`'s enclosing function, as in
`getCalleesOfCallAtImpl` and the erasure loop of `constructDynamicCall`. -/
def siteOutEdges (C : Ctx) (st : BuilderState) (n : Inst) : List Edge :=
  match lookupFvm st.functionVertexMap (C.irdb.instParent n) with
  | none => []
  | some v => st.cg.edges.filter fun e => e.src == v && e.cs == n

/-- The number of out-edges of `n`'s caller's vertex whose label equals `n`. -/
def siteEdgeCount (C : Ctx) (st : BuilderState) (n : Inst) : Nat :=
  (siteOutEdges C st n).length

/-- The target functions currently recorded on out-edges of `n`'s caller's
vertex labelled `n`. -/
def siteTgtFns (C : Ctx) (st : BuilderState) (n : Inst) : List Func :=
  (siteOutEdges C st n).map fun e => st.cg.vertFunc.getD e.tgt 0

/-- A site the builder classifies as static: a `CallBase` whose target is
found by `staticTarget`. -/
def IsStaticSite (C : Ctx) (n : Inst) : Prop :=
  ∃ sh f, C.irdb.instKind n = .callBase sh ∧ staticTarget C.irdb sh = some f

/-- A site the builder classifies as indirect: a `CallBase` with no static
target whose stripped operand is not inline assembly. -/
def IsIndirectSite (C : Ctx) (n : Inst) : Prop :=
  ∃ sh, C.irdb.instKind n = .callBase sh ∧ staticTarget C.irdb sh = none ∧
    sh.strippedIsInlineAsm = false

/-- Well-formedness of the embedded IR: every instruction of a function's
instruction list reports that function as its parent
(`llvm::Instruction::getFunction`). -/
def WFProg (C : Ctx) : Prop :=
  ∀ f n, n ∈ C.irdb.instructions f → C.irdb.instParent n = f

/-! ## Association-list lemmas -/

theorem lookupFvm_append_some {l : List (Func × vertex_t)} {f : Func}
    {v : vertex_t} (h : lookupFvm l f = some v) (l' : List (Func × vertex_t)) :
    lookupFvm (l ++ l') f = some v := by
  induction l with
  | nil => simp [lookupFvm] at h
  | cons p rest ih =>
    rw [List.cons_append, lookupFvm]
    rw [lookupFvm] at h
    by_cases hp : p.1 = f
    · rwa [if_pos hp] at h ⊢
    · rw [if_neg hp] at h ⊢
      exact ih h

theorem lookupFvm_append_none {l : List (Func × vertex_t)} {f : Func}
    (h : lookupFvm l f = none) (l' : List (Func × vertex_t)) :
    lookupFvm (l ++ l') f = lookupFvm l' f := by
  induction l with
  | nil => simp
  | cons p rest ih =>
    rw [List.cons_append, lookupFvm]
    rw [lookupFvm] at h
    by_cases hp : p.1 = f
    · rw [if_pos hp] at h; exact absurd h (by simp)
    · rw [if_neg hp] at h ⊢
      exact ih h

theorem icLookup_icSet_self (l : List (Inst × Nat)) (n : Inst) (c : Nat) :
    icLookup (icSet l n c) n = some c := by
  induction l with
  | nil => simp [icSet, icLookup]
  | cons p rest ih =>
    rw [icSet]
    by_cases hp : p.1 = n
    · rw [if_pos hp, icLookup, if_pos rfl]
    · rw [if_neg hp, icLookup, if_neg hp]
      exact ih

theorem icLookup_icSet_ne (l : List (Inst × Nat)) {m n : Inst} (c : Nat)
    (h : m ≠ n) : icLookup (icSet l n c) m = icLookup l m := by
  induction l with
  | nil =>
    rw [icSet, icLookup, icLookup, if_neg (fun hh : n = m => h hh.symm)]
    rfl
  | cons p rest ih =>
    rw [icSet]
    by_cases hp : p.1 = n
    · rw [if_pos hp, icLookup, icLookup,
        if_neg (fun hh : n = m => h hh.symm), hp,
        if_neg (fun hh : n = m => h hh.symm)]
    · rw [if_neg hp, icLookup, icLookup]
      by_cases hm : p.1 = m
      · rw [if_pos hm, if_pos hm]
      · rw [if_neg hm, if_neg hm]
        exact ih

theorem icRef_of_some {l : List (Inst × Nat)} {n : Inst} {c : Nat}
    (h : icLookup l n = some c) : icRef l n = (c, l) := by
  simp [icRef, h]

theorem icLookup_icRef_self (l : List (Inst × Nat)) (n : Inst) :
    icLookup (icRef l n).2 n = some (icRef l n).1 := by
  unfold icRef
  cases h : icLookup l n with
  | none => simp [icLookup_icSet_self]
  | some c => simp [h]

theorem icLookup_icRef_ne (l : List (Inst × Nat)) {m n : Inst} (h : m ≠ n) :
    icLookup (icRef l n).2 m = icLookup l m := by
  unfold icRef
  cases hl : icLookup l n with
  | none => simp [icLookup_icSet_ne _ _ h]
  | some c => simp

/-! ## Graph-consistency invariant and vertex-creation lemmas -/

/-- Consistency of the graph with `FunctionVertexMap`: the map sends a
function to a vertex carrying that function, vertices carry pairwise distinct
functions, unmapped functions have no vertex, edge targets are valid vertex
descriptors, and no `(caller, callee, site)` triple occurs twice. -/
structure GraphInv (st : BuilderState) : Prop where
  keyVal : ∀ f v, lookupFvm st.functionVertexMap f = some v →
    st.cg.vertFunc[v]? = some f
  vertNodup : st.cg.vertFunc.Nodup
  freshAbsent : ∀ f, lookupFvm st.functionVertexMap f = none →
    f ∉ st.cg.vertFunc
  edgeTgtLt : ∀ e ∈ st.cg.edges, e.tgt < st.cg.vertFunc.length
  edgesNodup : st.cg.edges.Nodup

/-- The parts of the state that only ever grow: vertices and edges are
appended to, and existing `FunctionVertexMap` entries are never changed. -/
structure StExtends (st st' : BuilderState) : Prop where
  vert : ∃ ext, st'.cg.vertFunc = st.cg.vertFunc ++ ext
  edges : ∃ ext, st'.cg.edges = st.cg.edges ++ ext
  fvm : ∀ f v, lookupFvm st.functionVertexMap f = some v →
    lookupFvm st'.functionVertexMap f = some v

theorem StExtends.rfl (st : BuilderState) : StExtends st st :=
  ⟨⟨[], (List.append_nil _).symm⟩, ⟨[], (List.append_nil _).symm⟩,
    fun _ _ h => h⟩

theorem StExtends.trans {s1 s2 s3 : BuilderState} (h1 : StExtends s1 s2)
    (h2 : StExtends s2 s3) : StExtends s1 s3 := by
  obtain ⟨⟨v1, hv1⟩, ⟨e1, he1⟩, hf1⟩ := h1
  obtain ⟨⟨v2, hv2⟩, ⟨e2, he2⟩, hf2⟩ := h2
  exact ⟨⟨v1 ++ v2, by rw [hv2, hv1, List.append_assoc]⟩,
    ⟨e1 ++ e2, by rw [he2, he1, List.append_assoc]⟩,
    fun f v h => hf2 f v (hf1 f v h)⟩

theorem getOrAddVertex_lookup_self (st : BuilderState) (f : Func) :
    lookupFvm (getOrAddVertex st f).2.functionVertexMap f =
      some (getOrAddVertex st f).1 := by
  unfold getOrAddVertex
  cases h : lookupFvm st.functionVertexMap f with
  | some v => simpa using h
  | none =>
    simp only
    rw [lookupFvm_append_none h, lookupFvm, if_pos rfl]

theorem getOrAddVertex_vertFn {st : BuilderState} (hg : GraphInv st)
    (f : Func) :
    (getOrAddVertex st f).2.cg.vertFunc[(getOrAddVertex st f).1]? = some f := by
  unfold getOrAddVertex
  cases h : lookupFvm st.functionVertexMap f with
  | some v => simpa using hg.keyVal f v h
  | none =>
    simp only
    rw [List.getElem?_append_right (Nat.le_refl _)]
    simp

theorem getOrAddVertex_extends (st : BuilderState) (f : Func) :
    StExtends st (getOrAddVertex st f).2 := by
  unfold getOrAddVertex
  cases h : lookupFvm st.functionVertexMap f with
  | some v => exact StExtends.rfl st
  | none =>
    refine ⟨⟨[f], rfl⟩, ⟨[], (List.append_nil _).symm⟩, fun g w hg => ?_⟩
    exact lookupFvm_append_some hg _

theorem lookupFvm_append_inv {l l' : List (Func × vertex_t)} {f : Func}
    {v : vertex_t} (h : lookupFvm (l ++ l') f = some v) :
    lookupFvm l f = some v ∨
      (lookupFvm l f = none ∧ lookupFvm l' f = some v) := by
  cases hl : lookupFvm l f with
  | some w =>
    left
    rw [lookupFvm_append_some hl l'] at h
    exact h
  | none =>
    right
    rw [lookupFvm_append_none hl l'] at h
    exact ⟨rfl, h⟩

theorem getOrAddVertex_fields (st : BuilderState) (f : Func) :
    (getOrAddVertex st f).2.cg.edges = st.cg.edges ∧
    (getOrAddVertex st f).2.visitedFunctions = st.visitedFunctions ∧
    (getOrAddVertex st f).2.functionWL = st.functionWL ∧
    (getOrAddVertex st f).2.indirectCalls = st.indirectCalls ∧
    (getOrAddVertex st f).2.trace = st.trace := by
  unfold getOrAddVertex
  cases lookupFvm st.functionVertexMap f <;> simp

theorem getOrAddVertex_graphInv {st : BuilderState} (hg : GraphInv st)
    (f : Func) : GraphInv (getOrAddVertex st f).2 := by
  unfold getOrAddVertex
  cases h : lookupFvm st.functionVertexMap f with
  | some v => exact hg
  | none =>
    simp only
    refine ⟨?_, ?_, ?_, ?_, hg.edgesNodup⟩
    · intro g w hgw
      rcases lookupFvm_append_inv hgw with hold | ⟨_, hnew⟩
      · have hv := hg.keyVal g w hold
        have hlt : w < st.cg.vertFunc.length := by
          rcases List.getElem?_eq_some.mp hv with ⟨hw, _⟩
          exact hw
        rw [List.getElem?_append_left hlt]
        exact hv
      · rw [lookupFvm] at hnew
        by_cases hf : f = g
        · rw [if_pos hf] at hnew
          have hw : w = st.cg.vertFunc.length := (Option.some.inj hnew).symm
          subst hw hf
          rw [List.getElem?_append_right (Nat.le_refl _)]
          simp
        · rw [if_neg hf, lookupFvm] at hnew
          exact absurd hnew (by simp)
    · have : f ∉ st.cg.vertFunc := hg.freshAbsent f h
      simp [List.nodup_append, hg.vertNodup, this]
    · intro g hgnone
      have h1 : lookupFvm st.functionVertexMap g = none := by
        cases hone : lookupFvm st.functionVertexMap g with
        | none => rfl
        | some w => rw [lookupFvm_append_some hone] at hgnone; exact absurd hgnone (by simp)
      rw [lookupFvm_append_none h1, lookupFvm] at hgnone
      by_cases hf : f = g
      · rw [if_pos hf] at hgnone; exact absurd hgnone (by simp)
      · intro hmem
        rcases List.mem_append.mp hmem with hm | hm
        · exact hg.freshAbsent g h1 hm
        · exact hf (List.mem_singleton.mp hm).symm
    · intro e he
      calc e.tgt < st.cg.vertFunc.length := hg.edgeTgtLt e he
        _ ≤ (st.cg.vertFunc ++ [f]).length := by simp

theorem vertFn_stable {st st' : BuilderState} (hx : StExtends st st')
    {w : vertex_t} (hlt : w < st.cg.vertFunc.length) :
    st'.cg.vertFunc.getD w 0 = st.cg.vertFunc.getD w 0 := by
  obtain ⟨ext, hext⟩ := hx.vert
  rw [List.getD_eq_getElem?_getD, List.getD_eq_getElem?_getD, hext,
    List.getElem?_append_left hlt]

theorem CallGraph.addEdge_vertFunc (cg : CallGraph) (e : Edge) :
    (cg.addEdge e).vertFunc = cg.vertFunc := by
  unfold CallGraph.addEdge; split <;> rfl

theorem CallGraph.addEdge_edges_of_not_mem {cg : CallGraph} {e : Edge}
    (h : e ∉ cg.edges) : (cg.addEdge e).edges = cg.edges ++ [e] := by
  unfold CallGraph.addEdge; rw [if_neg h]

theorem CallGraph.addEdge_of_mem {cg : CallGraph} {e : Edge}
    (h : e ∈ cg.edges) : cg.addEdge e = cg := by
  unfold CallGraph.addEdge; rw [if_pos h]

/-- Unfolding of `addTargetEdge` into its vertex-creation and edge/worklist
parts. -/
theorem addTargetEdge_def (v : vertex_t) (cs : Inst) (st : BuilderState)
    (f : Func) :
    addTargetEdge v cs st f =
      { (getOrAddVertex st f).2 with
          cg := (getOrAddVertex st f).2.cg.addEdge
            ⟨v, (getOrAddVertex st f).1, cs⟩,
          functionWL := (getOrAddVertex st f).2.functionWL ++ [f] } := rfl

/-! ## The shared edge-insertion step -/

theorem addTargetEdge_spec {st : BuilderState} (hg : GraphInv st)
    (v : vertex_t) (cs : Inst) (f : Func) (hf : f ∉ siteTgtFnsAt st v cs) :
    ∃ tv,
      (addTargetEdge v cs st f).cg.edges = st.cg.edges ++ [⟨v, tv, cs⟩] ∧
      GraphInv (addTargetEdge v cs st f) ∧
      StExtends st (addTargetEdge v cs st f) ∧
      siteTgtFnsAt (addTargetEdge v cs st f) v cs =
        siteTgtFnsAt st v cs ++ [f] ∧
      (addTargetEdge v cs st f).functionWL = st.functionWL ++ [f] ∧
      (addTargetEdge v cs st f).visitedFunctions = st.visitedFunctions ∧
      (addTargetEdge v cs st f).indirectCalls = st.indirectCalls ∧
      (addTargetEdge v cs st f).trace = st.trace := by
  obtain ⟨hE, hV, hW, hI, hT⟩ := getOrAddVertex_fields st f
  have hg1 : GraphInv (getOrAddVertex st f).2 := getOrAddVertex_graphInv hg f
  have hx1 : StExtends st (getOrAddVertex st f).2 := getOrAddVertex_extends st f
  have hfn : (getOrAddVertex st f).2.cg.vertFunc[(getOrAddVertex st f).1]? =
      some f := getOrAddVertex_vertFn hg f
  set st1 := (getOrAddVertex st f).2 with hst1
  set tv := (getOrAddVertex st f).1 with htv
  have htvlt : tv < st1.cg.vertFunc.length := by
    rcases List.getElem?_eq_some.mp hfn with ⟨hw, _⟩
    exact hw
  have hgetD : st1.cg.vertFunc.getD tv 0 = f := by
    rw [List.getD_eq_getElem?_getD, hfn]; rfl
  have hnotmem : (⟨v, tv, cs⟩ : Edge) ∉ st1.cg.edges := by
    rw [hE]
    intro hmem
    apply hf
    have hlt : tv < st.cg.vertFunc.length := hg.edgeTgtLt _ hmem
    have hstD : st.cg.vertFunc.getD tv 0 = f := by
      rw [← vertFn_stable hx1 hlt]
      exact hgetD
    rw [List.getD_eq_getElem?_getD] at hstD
    have hfe : (⟨v, tv, cs⟩ : Edge) ∈
        st.cg.edges.filter fun e => e.src == v && e.cs == cs :=
      List.mem_filter.mpr ⟨hmem, by simp⟩
    have hmm := List.mem_map_of_mem
      (fun e : Edge => st.cg.vertFunc.getD e.tgt 0) hfe
    simpa [siteTgtFnsAt, hstD] using hmm
  have hedges : (addTargetEdge v cs st f).cg.edges =
      st.cg.edges ++ [⟨v, tv, cs⟩] := by
    rw [addTargetEdge_def]
    show (st1.cg.addEdge ⟨v, tv, cs⟩).edges = _
    rw [CallGraph.addEdge_edges_of_not_mem hnotmem, hE]
  have hvf : (addTargetEdge v cs st f).cg.vertFunc = st1.cg.vertFunc := by
    rw [addTargetEdge_def]
    exact CallGraph.addEdge_vertFunc _ _
  have hfvm : (addTargetEdge v cs st f).functionVertexMap =
      st1.functionVertexMap := rfl
  refine ⟨tv, hedges, ?_, ?_, ?_, ?_, ?_, ?_, ?_⟩
  · refine ⟨fun g w h => ?_, ?_, fun g h => ?_, fun e he => ?_, ?_⟩
    · rw [hvf]; exact hg1.keyVal g w (by rw [← hfvm]; exact h)
    · rw [hvf]; exact hg1.vertNodup
    · rw [hvf] at *; exact hg1.freshAbsent g (by rw [← hfvm]; exact h)
    · rw [hvf]
      rw [hedges] at he
      rcases List.mem_append.mp he with hm | hm
      · calc e.tgt < st.cg.vertFunc.length := hg.edgeTgtLt e hm
          _ ≤ st1.cg.vertFunc.length := by
            obtain ⟨ext, hext⟩ := hx1.vert
            rw [hext]; simp
      · rw [List.mem_singleton.mp hm]
        exact htvlt
    · rw [hedges]
      have : (⟨v, tv, cs⟩ : Edge) ∉ st.cg.edges := by rw [← hE]; exact hnotmem
      simp [List.nodup_append, hg.edgesNodup, this]
  · refine ⟨?_, ⟨[⟨v, tv, cs⟩], hedges⟩,
      fun g w h => by rw [hfvm]; exact hx1.fvm g w h⟩
    rw [hvf]
    exact hx1.vert
  · show ((addTargetEdge v cs st f).cg.edges.filter
        fun e => e.src == v && e.cs == cs).map
        (fun e => (addTargetEdge v cs st f).cg.vertFunc.getD e.tgt 0) =
      siteTgtFnsAt st v cs ++ [f]
    rw [hedges, hvf, List.filter_append, List.map_append]
    congr 1
    · apply List.map_congr_left
      intro e he
      have hmem := (List.mem_filter.mp he).1
      exact vertFn_stable hx1 (hg.edgeTgtLt e hmem)
    · simp [hfn]
  · rw [addTargetEdge_def]
    show st1.functionWL ++ [f] = st.functionWL ++ [f]
    rw [hW]
  · exact hV
  · exact hI
  · exact hT

theorem addTargets_spec (v : vertex_t) (cs : Inst) :
    ∀ (fs : List Func) (st : BuilderState), GraphInv st → fs.Nodup →
    (∀ f ∈ fs, f ∉ siteTgtFnsAt st v cs) →
    GraphInv (addTargets v cs st fs) ∧
    StExtends st (addTargets v cs st fs) ∧
    (∃ newE, (addTargets v cs st fs).cg.edges = st.cg.edges ++ newE ∧
      newE.length = fs.length ∧ ∀ e ∈ newE, e.src = v ∧ e.cs = cs) ∧
    siteTgtFnsAt (addTargets v cs st fs) v cs = siteTgtFnsAt st v cs ++ fs ∧
    (addTargets v cs st fs).functionWL = st.functionWL ++ fs ∧
    (addTargets v cs st fs).visitedFunctions = st.visitedFunctions ∧
    (addTargets v cs st fs).indirectCalls = st.indirectCalls ∧
    (addTargets v cs st fs).trace = st.trace := by
  intro fs
  induction fs with
  | nil =>
    intro st hg _ _
    exact ⟨hg, StExtends.rfl st, ⟨[], by simp [addTargets], rfl, by simp⟩,
      by simp [addTargets], by simp [addTargets], rfl, rfl, rfl⟩
  | cons f rest ih =>
    intro st hg hnd hdis
    obtain ⟨tv, hedges, hg1, hx1, hsite, hwl, hvis, hic, htr⟩ :=
      addTargetEdge_spec hg v cs f (hdis f (List.mem_cons_self f rest))
    have hstep : addTargets v cs st (f :: rest) =
        addTargets v cs (addTargetEdge v cs st f) rest := rfl
    have hnd' : rest.Nodup := (List.nodup_cons.mp hnd).2
    have hfns : f ∉ rest := (List.nodup_cons.mp hnd).1
    have hdis' : ∀ g ∈ rest, g ∉ siteTgtFnsAt (addTargetEdge v cs st f) v cs := by
      intro g hgr
      rw [hsite]
      intro hmem
      rcases List.mem_append.mp hmem with hm | hm
      · exact hdis g (List.mem_cons_of_mem f hgr) hm
      · exact hfns (List.mem_singleton.mp hm ▸ hgr)
    obtain ⟨ihg, ihx, ⟨newE, ihe, ihlen, ihlbl⟩, ihsite, ihwl, ihvis, ihic,
      ihtr⟩ := ih (addTargetEdge v cs st f) hg1 hnd' hdis'
    rw [hstep]
    refine ⟨ihg, ?_, ⟨⟨v, tv, cs⟩ :: newE, ?_, ?_, ?_⟩, ?_, ?_, ?_, ?_, ?_⟩
    · exact StExtends.trans hx1 ihx
    · rw [ihe, hedges, List.append_assoc]; rfl
    · simpa using ihlen
    · intro e he
      rcases List.mem_cons.mp he with hm | hm
      · exact ⟨by rw [hm], by rw [hm]⟩
      · exact ihlbl e hm
    · rw [ihsite, hsite, List.append_assoc]; rfl
    · rw [ihwl, hwl, List.append_assoc]; rfl
    · rw [ihvis, hvis]
    · rw [ihic, hic]
    · rw [ihtr, htr]

/-- Counting targets: when the old target set `o` is duplicate-free and
contained in the duplicate-free answer `T`, the answer splits into the old
targets and the genuinely new ones. -/
theorem length_split_of_subset {T o : List Func} (hT : T.Nodup) (ho : o.Nodup)
    (hsub : ∀ x ∈ o, x ∈ T) :
    o.length + (T.filter fun f => decide (f ∉ o)).length = T.length := by
  have hmemfil : ∀ x, x ∈ T.filter (fun f => decide (f ∈ o)) ↔ x ∈ o := by
    intro x
    constructor
    · intro hx
      have := List.mem_filter.mp hx
      simpa using this.2
    · intro hx
      exact List.mem_filter.mpr ⟨hsub x hx, by simpa using hx⟩
  have h1 : (T.filter fun f => decide (f ∈ o)).length = o.length := by
    apply Nat.le_antisymm
    · exact List.Subperm.length_le
        ((hT.filter _).subperm fun x hx => (hmemfil x).mp hx)
    · exact List.Subperm.length_le
        (ho.subperm fun x hx => (hmemfil x).mpr hx)
  have h2 := List.length_eq_length_filter_add (l := T)
    (fun f => decide (f ∈ o))
  rw [h2, h1]
  have h3 : (T.filter fun f => decide (f ∉ o)) =
      T.filter fun x => !decide (x ∈ o) := by
    apply List.filter_congr
    intro x _
    simp
  rw [h3]

/-- The resolve event recorded for a site, matching the branch
`internalIsVirtualFunctionCall ? resolveVirtualCall : resolveFunctionPointer`. -/
def resolveEvent (C : Ctx) (cs : Inst) : HookEvent :=
  if internalIsVirtualFunctionCall C cs then .resolveVirtualCall cs
  else .resolveFunctionPointer cs

theorem siteOutEdges_eq {C : Ctx} {st : BuilderState} {n : Inst} {v : vertex_t}
    (h : lookupFvm st.functionVertexMap (C.irdb.instParent n) = some v) :
    siteOutEdges C st n =
      st.cg.edges.filter fun e => e.src == v && e.cs == n := by
  rw [siteOutEdges, h]

theorem siteTgtFns_eq {C : Ctx} {st : BuilderState} {n : Inst} {v : vertex_t}
    (h : lookupFvm st.functionVertexMap (C.irdb.instParent n) = some v) :
    siteTgtFns C st n = siteTgtFnsAt st v n := by
  rw [siteTgtFns, siteOutEdges_eq h, siteTgtFnsAt]

theorem siteEdgeCount_eq {C : Ctx} {st : BuilderState} {n : Inst}
    {v : vertex_t}
    (h : lookupFvm st.functionVertexMap (C.irdb.instParent n) = some v) :
    siteEdgeCount C st n = (siteTgtFnsAt st v n).length := by
  rw [siteEdgeCount, siteOutEdges_eq h, siteTgtFnsAt, List.length_map]

theorem mem_filter_site {e : Edge} {l : List Edge} {v : vertex_t} {cs : Inst}
    (h : e ∈ l.filter fun e => e.src == v && e.cs == cs) :
    e ∈ l ∧ e.src = v ∧ e.cs = cs := by
  have := List.mem_filter.mp h
  refine ⟨this.1, ?_, ?_⟩ <;> [skip; skip] <;>
    · have h2 := this.2
      simp only [Bool.and_eq_true, beq_iff_eq] at h2
      first
        | exact h2.1
        | exact h2.2

/-- Under the graph invariant, the targets recorded for a `(vertex, site)`
pair are pairwise distinct functions. -/
theorem siteTgtFnsAt_nodup {st : BuilderState} (hg : GraphInv st)
    (v : vertex_t) (cs : Inst) : (siteTgtFnsAt st v cs).Nodup := by
  rw [siteTgtFnsAt]
  refine List.Nodup.map_on ?_ (hg.edgesNodup.filter _)
  intro e1 h1 e2 h2 hfe
  obtain ⟨hm1, hs1, hc1⟩ := mem_filter_site h1
  obtain ⟨hm2, hs2, hc2⟩ := mem_filter_site h2
  have hlt1 : e1.tgt < st.cg.vertFunc.length := hg.edgeTgtLt e1 hm1
  have hlt2 : e2.tgt < st.cg.vertFunc.length := hg.edgeTgtLt e2 hm2
  have hg1 : st.cg.vertFunc.getD e1.tgt 0 = st.cg.vertFunc[e1.tgt] := by
    rw [List.getD_eq_getElem?_getD, List.getElem?_eq_getElem hlt1]; rfl
  have hg2 : st.cg.vertFunc.getD e2.tgt 0 = st.cg.vertFunc[e2.tgt] := by
    rw [List.getD_eq_getElem?_getD, List.getElem?_eq_getElem hlt2]; rfl
  rw [hg1, hg2] at hfe
  have htgt : e1.tgt = e2.tgt := by
    by_contra hne
    exact hne (hg.vertNodup.getElem_inj_iff.mp hfe)
  cases e1; cases e2
  simp_all

/-- The inductive invariant of the fixed-point construction, relative to a
family `A` of resolver answers (one per call site): graph consistency,
recorded indirect sites have visited parents with vertices and are indeed
indirect-classified, every edge label is a static site or a recorded indirect
site, the recorded count equals the number of out-edges of the site, and the
recorded targets are contained in the resolver's answer. -/
structure Inv (C : Ctx) (A : Inst → List Func) (st : BuilderState) : Prop where
  graph : GraphInv st
  parentVisited : ∀ n c, icLookup st.indirectCalls n = some c →
    C.irdb.instParent n ∈ st.visitedFunctions
  parentVertex : ∀ n c, icLookup st.indirectCalls n = some c →
    (lookupFvm st.functionVertexMap (C.irdb.instParent n)).isSome
  recIndirect : ∀ n c, icLookup st.indirectCalls n = some c →
    IsIndirectSite C n
  edgeCs : ∀ e ∈ st.cg.edges, IsStaticSite C e.cs ∨
    (icLookup st.indirectCalls e.cs).isSome
  countEq : ∀ n c, icLookup st.indirectCalls n = some c →
    siteEdgeCount C st n = c
  tgtsSub : ∀ n c, icLookup st.indirectCalls n = some c →
    ∀ f ∈ siteTgtFns C st n, f ∈ A n

theorem addTrace_append (st : BuilderState) (l1 l2 : List HookEvent) :
    addTrace (addTrace st l1) l2 = addTrace st (l1 ++ l2) := by
  cases st
  simp [addTrace]

theorem addTrace_indirectCalls (st : BuilderState) (evs : List HookEvent) :
    (addTrace st evs).indirectCalls = st.indirectCalls := rfl

theorem addTrace_cg (st : BuilderState) (evs : List HookEvent) :
    (addTrace st evs).cg = st.cg := rfl

/-- Stability of per-site targets when only edges of a different label are
appended and vertices only grow. -/
theorem siteTgtFnsAt_stable {st st' : BuilderState} {newE : List Edge}
    {cs : Inst} (hx : StExtends st st') (hg : GraphInv st)
    (hE : st'.cg.edges = st.cg.edges ++ newE)
    (hlbl : ∀ e ∈ newE, e.cs = cs) {w : vertex_t} {m : Inst} (hm : m ≠ cs) :
    siteTgtFnsAt st' w m = siteTgtFnsAt st w m := by
  rw [siteTgtFnsAt, siteTgtFnsAt, hE, List.filter_append]
  have hnil : (newE.filter fun e => e.src == w && e.cs == m) = [] := by
    rw [List.filter_eq_nil_iff]
    intro e he
    have : e.cs = cs := hlbl e he
    simp [this, hm.symm]
  rw [hnil, List.append_nil]
  apply List.map_congr_left
  intro e he
  exact vertFn_stable hx (hg.edgeTgtLt e (mem_filter_site he).1)

/-- Definitional characterization of `constructDynamicCall` on a recorded
`CallBase` site whose resolver answer is not larger than the recorded count:
the hooks `preCall` and the chosen resolve are invoked, and nothing else
changes. -/
theorem constructDynamicCall_noNew {C : Ctx} {R : Resolver}
    {st : BuilderState} {cs : Inst} {v : vertex_t} {c : Nat} {sh : CallShape}
    (hv : lookupFvm st.functionVertexMap (C.irdb.instParent cs) = some v)
    (hsh : C.irdb.instKind cs = .callBase sh)
    (hrec : icLookup st.indirectCalls cs = some c)
    (hle : (chosenAnswer C R cs).length ≤ c) :
    constructDynamicCall C R st cs =
      some (false, addTrace st [.preCall cs, resolveEvent C cs]) := by
  rw [constructDynamicCall, hv, hsh]
  simp only
  rw [show (addTrace (addTrace st [HookEvent.preCall cs])
      [if internalIsVirtualFunctionCall C cs then HookEvent.resolveVirtualCall cs
        else HookEvent.resolveFunctionPointer cs]).indirectCalls =
      st.indirectCalls from rfl]
  rw [icRef_of_some hrec]
  have hnotlt : ¬ (c < (if internalIsVirtualFunctionCall C cs then
      R.resolveVirtualCall cs else R.resolveFunctionPointer cs).length) :=
    Nat.not_lt.mpr hle
  rw [if_neg hnotlt]
  show some (false, addTrace (addTrace st [HookEvent.preCall cs])
    [resolveEvent C cs]) = _
  rw [addTrace_append]
  rfl

/-- Definitional characterization of `constructDynamicCall` on a recorded
`CallBase` site whose resolver answer strictly exceeds the recorded count:
the count becomes the answer size, already-connected targets are erased, and
the remaining ones are inserted. -/
theorem constructDynamicCall_new_eq {C : Ctx} {R : Resolver}
    {st : BuilderState} {cs : Inst} {v : vertex_t} {c : Nat} {sh : CallShape}
    (hv : lookupFvm st.functionVertexMap (C.irdb.instParent cs) = some v)
    (hsh : C.irdb.instKind cs = .callBase sh)
    (hrec : icLookup st.indirectCalls cs = some c)
    (hgt : c < (chosenAnswer C R cs).length) :
    constructDynamicCall C R st cs = some (true,
      addTrace (addTargets v cs (addTrace
        { addTrace st [.preCall cs, resolveEvent C cs] with
            indirectCalls :=
              icSet st.indirectCalls cs (chosenAnswer C R cs).length }
        [.handlePossibleTargets cs])
        ((chosenAnswer C R cs).filter fun f =>
          decide (f ∉ siteTgtFnsAt st v cs)))
        [.postCall cs]) := by
  rw [constructDynamicCall, hv, hsh]
  simp only
  rw [show (addTrace (addTrace st [HookEvent.preCall cs])
      [if internalIsVirtualFunctionCall C cs then HookEvent.resolveVirtualCall cs
        else HookEvent.resolveFunctionPointer cs]).indirectCalls =
      st.indirectCalls from rfl]
  rw [icRef_of_some hrec]
  have hlt : c < (if internalIsVirtualFunctionCall C cs then
      R.resolveVirtualCall cs else R.resolveFunctionPointer cs).length := hgt
  rw [if_pos hlt]
  rw [show addTrace (addTrace st [HookEvent.preCall cs])
      [if internalIsVirtualFunctionCall C cs then HookEvent.resolveVirtualCall cs
        else HookEvent.resolveFunctionPointer cs] =
      addTrace st [.preCall cs, resolveEvent C cs] from by
    rw [addTrace_append]; rfl]
  rfl

/-- Behavioural characterization of a target-adding `constructDynamicCall`
run: graph and map consistency are preserved, the recorded count becomes the
answer size, one edge per not-yet-connected answer target is appended (all
from the caller's vertex, labelled with the site), those targets are pushed
onto the worklist, and the hook sequence
`preCall, resolve, handlePossibleTargets, postCall` is emitted. -/
theorem constructDynamicCall_new_spec {C : Ctx} {R : Resolver}
    {st : BuilderState} {cs : Inst} {v : vertex_t} {c : Nat} {sh : CallShape}
    (hg : GraphInv st)
    (hv : lookupFvm st.functionVertexMap (C.irdb.instParent cs) = some v)
    (hsh : C.irdb.instKind cs = .callBase sh)
    (hrec : icLookup st.indirectCalls cs = some c)
    (hnd : (chosenAnswer C R cs).Nodup)
    (hgt : c < (chosenAnswer C R cs).length) :
    ∃ st', constructDynamicCall C R st cs = some (true, st') ∧
      GraphInv st' ∧ StExtends st st' ∧
      st'.indirectCalls =
        icSet st.indirectCalls cs (chosenAnswer C R cs).length ∧
      st'.visitedFunctions = st.visitedFunctions ∧
      (∃ newE, st'.cg.edges = st.cg.edges ++ newE ∧
        newE.length = ((chosenAnswer C R cs).filter fun f =>
          decide (f ∉ siteTgtFnsAt st v cs)).length ∧
        ∀ e ∈ newE, e.src = v ∧ e.cs = cs) ∧
      siteTgtFnsAt st' v cs = siteTgtFnsAt st v cs ++
        ((chosenAnswer C R cs).filter fun f =>
          decide (f ∉ siteTgtFnsAt st v cs)) ∧
      st'.functionWL = st.functionWL ++
        ((chosenAnswer C R cs).filter fun f =>
          decide (f ∉ siteTgtFnsAt st v cs)) ∧
      st'.trace = st.trace ++ [.preCall cs, resolveEvent C cs,
        .handlePossibleTargets cs, .postCall cs] := by
  set remaining := (chosenAnswer C R cs).filter fun f =>
    decide (f ∉ siteTgtFnsAt st v cs) with hrem
  set st3 := addTrace
    { addTrace st [.preCall cs, resolveEvent C cs] with
        indirectCalls :=
          icSet st.indirectCalls cs (chosenAnswer C R cs).length }
    [.handlePossibleTargets cs] with hst3
  have hg3 : GraphInv st3 :=
    ⟨hg.keyVal, hg.vertNodup, hg.freshAbsent, hg.edgeTgtLt, hg.edgesNodup⟩
  have hnd' : remaining.Nodup := hnd.filter _
  have hdis : ∀ f ∈ remaining, f ∉ siteTgtFnsAt st3 v cs := by
    intro f hf
    have := List.mem_filter.mp hf
    simpa using this.2
  obtain ⟨sg, sx, ⟨newE, se, selen, selbl⟩, ssite, swl, svis, sic, str⟩ :=
    addTargets_spec v cs remaining st3 hg3 hnd' hdis
  refine ⟨addTrace (addTargets v cs st3 remaining) [.postCall cs],
    constructDynamicCall_new_eq hv hsh hrec hgt, ?_, ?_, ?_, ?_, ?_, ?_, ?_,
    ?_⟩
  · exact ⟨sg.keyVal, sg.vertNodup, sg.freshAbsent, sg.edgeTgtLt,
      sg.edgesNodup⟩
  · refine StExtends.trans (StExtends.trans ?_ sx) ?_
    · exact ⟨⟨[], (List.append_nil _).symm⟩, ⟨[], (List.append_nil _).symm⟩,
        fun _ _ h => h⟩
    · exact ⟨⟨[], (List.append_nil _).symm⟩, ⟨[], (List.append_nil _).symm⟩,
        fun _ _ h => h⟩
  · exact sic
  · exact svis
  · exact ⟨newE, se, selen, selbl⟩
  · exact ssite
  · exact swl
  · show (addTargets v cs st3 remaining).trace ++ [HookEvent.postCall cs] = _
    rw [str]
    show ((st.trace ++ [.preCall cs, resolveEvent C cs]) ++
      [.handlePossibleTargets cs]) ++ [.postCall cs] = _
    simp

theorem inv_mono_answers {C : Ctx} {A A' : Inst → List Func}
    {st : BuilderState} (h : Inv C A st)
    (hAA : ∀ n f, f ∈ A n → f ∈ A' n) : Inv C A' st :=
  ⟨h.graph, h.parentVisited, h.parentVertex, h.recIndirect, h.edgeCs,
    h.countEq, fun n c hr f hf => hAA n f (h.tgtsSub n c hr f hf)⟩

/-- `constructDynamicCall` preserves the construction invariant (relative to
the answers of the resolver in use) and never drops recorded sites. -/
theorem inv_constructDynamicCall {C : Ctx} {R : Resolver} {st : BuilderState}
    {cs : Inst} {p : Bool × BuilderState}
    (hI : Inv C (chosenAnswer C R) st)
    (hnd : ∀ m, (chosenAnswer C R m).Nodup)
    (hrec : (icLookup st.indirectCalls cs).isSome)
    (heq : constructDynamicCall C R st cs = some p) :
    Inv C (chosenAnswer C R) p.2 ∧
    (∀ m, (icLookup st.indirectCalls m).isSome →
      (icLookup p.2.indirectCalls m).isSome) := by
  obtain ⟨c, hc⟩ := Option.isSome_iff_exists.mp hrec
  obtain ⟨sh, hsh, _, _⟩ := hI.recIndirect cs c hc
  obtain ⟨v, hv⟩ := Option.isSome_iff_exists.mp (hI.parentVertex cs c hc)
  by_cases hgt : c < (chosenAnswer C R cs).length
  · obtain ⟨st', heq', hg', hx', hic', hvis', ⟨newE, hE', _, hlbl'⟩, hsite',
      hwl', htr'⟩ :=
      constructDynamicCall_new_spec hI.graph hv hsh hc (hnd cs) hgt
    rw [heq'] at heq
    obtain rfl : p = (true, st') := (Option.some.inj heq).symm
    have hkey : ∀ m, (icLookup st.indirectCalls m).isSome →
        (icLookup st'.indirectCalls m).isSome := by
      intro m hm
      rw [hic']
      by_cases hmcs : m = cs
      · subst hmcs; rw [icLookup_icSet_self]; rfl
      · rw [icLookup_icSet_ne _ _ hmcs]; exact hm
    have hkeyinv : ∀ m d, icLookup st'.indirectCalls m = some d →
        m ≠ cs → icLookup st.indirectCalls m = some d := by
      intro m d hm hmcs
      rw [hic', icLookup_icSet_ne _ _ hmcs] at hm
      exact hm
    have hcs' : icLookup st'.indirectCalls cs =
        some (chosenAnswer C R cs).length := by
      rw [hic', icLookup_icSet_self]
    have hvs : lookupFvm st'.functionVertexMap (C.irdb.instParent cs) =
        some v := hx'.fvm _ v hv
    have hOldSub : ∀ f ∈ siteTgtFnsAt st v cs, f ∈ chosenAnswer C R cs := by
      intro f hf
      exact hI.tgtsSub cs c hc f (by rwa [siteTgtFns_eq hv])
    refine ⟨⟨hg', ?_, ?_, ?_, ?_, ?_, ?_⟩, hkey⟩
    · intro m d hm
      rw [hvis']
      by_cases hmcs : m = cs
      · subst hmcs; exact hI.parentVisited m c hc
      · exact hI.parentVisited m d (hkeyinv m d hm hmcs)
    · intro m d hm
      by_cases hmcs : m = cs
      · subst hmcs; rw [hvs]; rfl
      · obtain ⟨w, hw⟩ := Option.isSome_iff_exists.mp
          (hI.parentVertex m d (hkeyinv m d hm hmcs))
        rw [hx'.fvm _ w hw]; rfl
    · intro m d hm
      by_cases hmcs : m = cs
      · subst hmcs; exact hI.recIndirect m c hc
      · exact hI.recIndirect m d (hkeyinv m d hm hmcs)
    · intro e he
      rw [hE'] at he
      rcases List.mem_append.mp he with hm | hm
      · rcases hI.edgeCs e hm with hstat | hrec'
        · exact Or.inl hstat
        · exact Or.inr (hkey e.cs hrec')
      · right
        rw [(hlbl' e hm).2, hcs']
        rfl
    · intro m d hm
      by_cases hmcs : m = cs
      · subst hmcs
        rw [hcs'] at hm
        have hd : d = (chosenAnswer C R m).length := (Option.some.inj hm).symm
        subst hd
        rw [siteEdgeCount_eq hvs, hsite', List.length_append]
        have hcnt : (siteTgtFnsAt st v m).length = c := by
          rw [← siteEdgeCount_eq hv]
          exact hI.countEq m c hc
        have := length_split_of_subset (hnd m)
          (siteTgtFnsAt_nodup hI.graph v m) hOldSub
        rw [hcnt] at this
        rw [hcnt]
        exact this
      · have hom := hkeyinv m d hm hmcs
        obtain ⟨w, hw⟩ := Option.isSome_iff_exists.mp
          (hI.parentVertex m d hom)
        have hws : lookupFvm st'.functionVertexMap (C.irdb.instParent m) =
            some w := hx'.fvm _ w hw
        rw [siteEdgeCount_eq hws,
          siteTgtFnsAt_stable hx' hI.graph hE' (fun e he => (hlbl' e he).2)
            hmcs, ← siteEdgeCount_eq hw]
        exact hI.countEq m d hom
    · intro m d hm f hf
      by_cases hmcs : m = cs
      · subst hmcs
        rw [siteTgtFns_eq hvs, hsite'] at hf
        rcases List.mem_append.mp hf with hfm | hfm
        · exact hOldSub f hfm
        · exact (List.mem_filter.mp hfm).1
      · have hom := hkeyinv m d hm hmcs
        obtain ⟨w, hw⟩ := Option.isSome_iff_exists.mp
          (hI.parentVertex m d hom)
        have hws : lookupFvm st'.functionVertexMap (C.irdb.instParent m) =
            some w := hx'.fvm _ w hw
        rw [siteTgtFns_eq hws,
          siteTgtFnsAt_stable hx' hI.graph hE' (fun e he => (hlbl' e he).2)
            hmcs] at hf
        exact hI.tgtsSub m d hom f (by rwa [siteTgtFns_eq hw])
  · have hle : (chosenAnswer C R cs).length ≤ c := Nat.not_lt.mp hgt
    rw [constructDynamicCall_noNew hv hsh hc hle] at heq
    obtain rfl : p = (false, addTrace st [.preCall cs, resolveEvent C cs]) :=
      (Option.some.inj heq).symm
    exact ⟨⟨⟨hI.graph.keyVal, hI.graph.vertNodup, hI.graph.freshAbsent,
      hI.graph.edgeTgtLt, hI.graph.edgesNodup⟩, hI.parentVisited,
      hI.parentVertex, hI.recIndirect, hI.edgeCs, hI.countEq, hI.tgtsSub⟩,
      fun m hm => hm⟩

theorem static_indirect_disjoint {C : Ctx} {n : Inst} (hs : IsStaticSite C n)
    (hi : IsIndirectSite C n) : False := by
  obtain ⟨sh, f, hsh, hf⟩ := hs
  obtain ⟨sh', hsh', hnone, _⟩ := hi
  rw [hsh] at hsh'
  cases hsh'
  rw [hf] at hnone
  exact absurd hnone (by simp)

/-- A recorded-or-static label is impossible for an indirect site that is not
yet recorded, so such a site has no out-edges. -/
theorem siteOutEdges_nil {C : Ctx} {A : Inst → List Func} {s : BuilderState}
    {n : Inst} (hI : Inv C A s) (hind : IsIndirectSite C n)
    (hunrec : icLookup s.indirectCalls n = none) : siteOutEdges C s n = [] := by
  rw [siteOutEdges]
  cases hl : lookupFvm s.functionVertexMap (C.irdb.instParent n) with
  | none => rfl
  | some w =>
    rw [List.filter_eq_nil_iff]
    intro e he hcond
    simp only [Bool.and_eq_true, beq_iff_eq] at hcond
    rcases hI.edgeCs e he with hstat | hrec
    · rw [hcond.2] at hstat
      exact static_indirect_disjoint hstat hind
    · rw [hcond.2, hunrec] at hrec
      exact absurd hrec (by simp)

/-- `addTargetEdge` without a freshness assumption: at most one edge, from `v`
and labelled `cs`, is appended; the target always lands on the worklist. -/
theorem addTargetEdge_general {st : BuilderState} (hg : GraphInv st)
    (v : vertex_t) (cs : Inst) (f : Func) :
    GraphInv (addTargetEdge v cs st f) ∧
    StExtends st (addTargetEdge v cs st f) ∧
    (∃ newE, (addTargetEdge v cs st f).cg.edges = st.cg.edges ++ newE ∧
      ∀ e ∈ newE, e.src = v ∧ e.cs = cs) ∧
    (addTargetEdge v cs st f).functionWL = st.functionWL ++ [f] ∧
    (addTargetEdge v cs st f).visitedFunctions = st.visitedFunctions ∧
    (addTargetEdge v cs st f).indirectCalls = st.indirectCalls ∧
    (addTargetEdge v cs st f).trace = st.trace := by
  by_cases hf : f ∈ siteTgtFnsAt st v cs
  · obtain ⟨e, hef, hefn⟩ := List.mem_map.mp hf
    obtain ⟨hee, hes, hec⟩ := mem_filter_site hef
    have hlt : e.tgt < st.cg.vertFunc.length := hg.edgeTgtLt e hee
    have hget : st.cg.vertFunc[e.tgt] = f := by
      rw [List.getD_eq_getElem?_getD, List.getElem?_eq_getElem hlt] at hefn
      exact hefn
    have hfmem : f ∈ st.cg.vertFunc := hget ▸ List.getElem_mem hlt
    cases hl : lookupFvm st.functionVertexMap f with
    | none => exact absurd hfmem (hg.freshAbsent f hl)
    | some w =>
      have hw : st.cg.vertFunc[w]? = some f := hg.keyVal f w hl
      have hwlt : w < st.cg.vertFunc.length := by
        rcases List.getElem?_eq_some.mp hw with ⟨h1, _⟩; exact h1
      have hweq : w = e.tgt := by
        apply hg.vertNodup.getElem_inj_iff.mp
        rw [List.getElem?_eq_getElem hwlt] at hw
        rw [Option.some.inj hw, hget]
      have hemem : (⟨v, w, cs⟩ : Edge) ∈ st.cg.edges := by
        have : e = ⟨v, w, cs⟩ := by
          cases e
          simp_all
        rwa [← this]
      have hgoav : getOrAddVertex st f = (w, st) := by
        rw [getOrAddVertex, hl]
      have hadd : addTargetEdge v cs st f =
          { st with
              cg := st.cg.addEdge ⟨v, w, cs⟩,
              functionWL := st.functionWL ++ [f] } := by
        rw [addTargetEdge_def, hgoav]
      have hcg : st.cg.addEdge ⟨v, w, cs⟩ = st.cg :=
        CallGraph.addEdge_of_mem hemem
      rw [hadd, hcg]
      refine ⟨⟨hg.keyVal, hg.vertNodup, hg.freshAbsent, hg.edgeTgtLt,
        hg.edgesNodup⟩,
        ⟨⟨[], (List.append_nil _).symm⟩, ⟨[], (List.append_nil _).symm⟩,
          fun _ _ h => h⟩,
        ⟨[], (List.append_nil _).symm, by simp⟩, rfl, rfl, rfl, rfl⟩
  · obtain ⟨tv, hedges, hg', hx', _, hwl, hvis, hic, htr⟩ :=
      addTargetEdge_spec hg v cs f hf
    exact ⟨hg', hx', ⟨[⟨v, tv, cs⟩], hedges, by simp⟩, hwl, hvis, hic, htr⟩

/-- Transport of the construction invariant along a step that only grows the
vertex set, keeps the edges and the indirect-call map, and extends the
visited set. -/
theorem inv_extend_graphonly {C : Ctx} {A : Inst → List Func}
    {s s' : BuilderState} (hI : Inv C A s) (hg' : GraphInv s')
    (hx : StExtends s s') (hE : s'.cg.edges = s.cg.edges)
    (hic : s'.indirectCalls = s.indirectCalls)
    (hvis : ∀ f ∈ s.visitedFunctions, f ∈ s'.visitedFunctions) :
    Inv C A s' := by
  have hsite : ∀ m w, lookupFvm s.functionVertexMap (C.irdb.instParent m) =
      some w → siteOutEdges C s' m = siteOutEdges C s m := by
    intro m w hw
    rw [siteOutEdges_eq (hx.fvm _ w hw), siteOutEdges_eq hw, hE]
  have htgt : ∀ m w, lookupFvm s.functionVertexMap (C.irdb.instParent m) =
      some w → siteTgtFns C s' m = siteTgtFns C s m := by
    intro m w hw
    rw [siteTgtFns_eq (hx.fvm _ w hw), siteTgtFns_eq hw, siteTgtFnsAt,
      siteTgtFnsAt, hE]
    apply List.map_congr_left
    intro e he
    exact vertFn_stable hx (hI.graph.edgeTgtLt e (mem_filter_site he).1)
  refine ⟨hg', ?_, ?_, ?_, ?_, ?_, ?_⟩
  · intro n c hn
    rw [hic] at hn
    exact hvis _ (hI.parentVisited n c hn)
  · intro n c hn
    rw [hic] at hn
    obtain ⟨w, hw⟩ := Option.isSome_iff_exists.mp (hI.parentVertex n c hn)
    rw [hx.fvm _ w hw]
    rfl
  · intro n c hn
    rw [hic] at hn
    exact hI.recIndirect n c hn
  · intro e he
    rw [hE] at he
    rcases hI.edgeCs e he with h | h
    · exact Or.inl h
    · right; rwa [hic]
  · intro n c hn
    rw [hic] at hn
    obtain ⟨w, hw⟩ := Option.isSome_iff_exists.mp (hI.parentVertex n c hn)
    rw [siteEdgeCount, hsite n w hw, ← siteEdgeCount]
    exact hI.countEq n c hn
  · intro n c hn f hf
    rw [hic] at hn
    obtain ⟨w, hw⟩ := Option.isSome_iff_exists.mp (hI.parentVertex n c hn)
    rw [htgt n w hw] at hf
    exact hI.tgtsSub n c hn f hf

/-- `processInst` on a non-call instruction: only `otherInst` is announced. -/
theorem processInst_other_eq {C : Ctx} {n : Inst} (v : vertex_t) (fx : Bool)
    (s : BuilderState) (hk : C.irdb.instKind n = .other) :
    processInst C v (fx, s) n = (fx, addTrace s [.otherInst n]) := by
  rw [processInst, hk]

/-- `processInst` on a statically resolvable call: `preCall`,
`handlePossibleTargets`, the edge/worklist insertion, then `postCall`. -/
theorem processInst_static_eq {C : Ctx} {n : Inst} {sh : CallShape} {f : Func}
    (v : vertex_t) (fx : Bool) (s : BuilderState)
    (hk : C.irdb.instKind n = .callBase sh)
    (hst : staticTarget C.irdb sh = some f) :
    processInst C v (fx, s) n = (fx, addTrace (addTargetEdge v n
      (addTrace (addTrace s [.preCall n]) [.handlePossibleTargets n]) f)
      [.postCall n]) := by
  rw [processInst, hk]
  simp only [hst]

/-- `processInst` on an inline-assembly call: `preCall` only, then the
`continue`. -/
theorem processInst_asm_eq {C : Ctx} {n : Inst} {sh : CallShape}
    (v : vertex_t) (fx : Bool) (s : BuilderState)
    (hk : C.irdb.instKind n = .callBase sh)
    (hst : staticTarget C.irdb sh = none)
    (hasm : sh.strippedIsInlineAsm = true) :
    processInst C v (fx, s) n = (fx, addTrace s [.preCall n]) := by
  rw [processInst, hk]
  simp only [hst, hasm]
  rfl

/-- `processInst` on an indirect call: `preCall`, then the site is recorded
with count zero and `FixpointReached` is cleared; no other hook runs. -/
theorem processInst_indirect_eq {C : Ctx} {n : Inst} {sh : CallShape}
    (v : vertex_t) (fx : Bool) (s : BuilderState)
    (hk : C.irdb.instKind n = .callBase sh)
    (hst : staticTarget C.irdb sh = none)
    (hasm : sh.strippedIsInlineAsm = false) :
    processInst C v (fx, s) n = (false,
      { addTrace s [.preCall n] with
          indirectCalls := icSet s.indirectCalls n 0 }) := by
  rw [processInst, hk]
  simp only [hst, hasm]
  rfl

/-- One step of the instruction loop of `processFunction` preserves the
construction invariant; moreover the `FunctionVertexMap` entry of the
enclosing function stays fixed, the visited set is untouched, recorded sites
are never dropped, and sites of the enclosing function keep count zero. -/
theorem inv_processInst {C : Ctx} {A : Inst → List Func} {s : BuilderState}
    {F : Func} {v : vertex_t} {n : Inst} {fx : Bool}
    (hI : Inv C A s) (hvisF : F ∈ s.visitedFunctions)
    (hv : lookupFvm s.functionVertexMap F = some v)
    (hzero : ∀ m d, icLookup s.indirectCalls m = some d →
      C.irdb.instParent m = F → d = 0)
    (hpar : C.irdb.instParent n = F) :
    Inv C A (processInst C v (fx, s) n).2 ∧
    StExtends s (processInst C v (fx, s) n).2 ∧
    (∀ m, (icLookup s.indirectCalls m).isSome →
      (icLookup (processInst C v (fx, s) n).2.indirectCalls m).isSome) ∧
    (processInst C v (fx, s) n).2.visitedFunctions = s.visitedFunctions ∧
    lookupFvm (processInst C v (fx, s) n).2.functionVertexMap F = some v ∧
    (∀ m d, icLookup (processInst C v (fx, s) n).2.indirectCalls m = some d →
      C.irdb.instParent m = F → d = 0) ∧
    (∀ m d, icLookup s.indirectCalls m = some d →
      icLookup (processInst C v (fx, s) n).2.indirectCalls m = some d) := by
  cases hk : C.irdb.instKind n with
  | other =>
    rw [processInst_other_eq v fx s hk]
    exact ⟨⟨⟨hI.graph.keyVal, hI.graph.vertNodup, hI.graph.freshAbsent,
      hI.graph.edgeTgtLt, hI.graph.edgesNodup⟩, hI.parentVisited,
      hI.parentVertex, hI.recIndirect, hI.edgeCs, hI.countEq, hI.tgtsSub⟩,
      ⟨⟨[], (List.append_nil _).symm⟩, ⟨[], (List.append_nil _).symm⟩,
        fun _ _ h => h⟩, fun _ h => h, rfl, hv, hzero, fun _ _ h => h⟩
  | callBase sh =>
    cases hst : staticTarget C.irdb sh with
    | some f =>
      rw [processInst_static_eq v fx s hk hst]
      set s1 := addTrace (addTrace s [HookEvent.preCall n])
        [HookEvent.handlePossibleTargets n] with hs1
      have hI1 : Inv C A s1 :=
        ⟨⟨hI.graph.keyVal, hI.graph.vertNodup, hI.graph.freshAbsent,
          hI.graph.edgeTgtLt, hI.graph.edgesNodup⟩, hI.parentVisited,
          hI.parentVertex, hI.recIndirect, hI.edgeCs, hI.countEq, hI.tgtsSub⟩
      obtain ⟨hg2, hx2, ⟨newE, hE2, hlbl2⟩, hwl2, hvis2, hic2, htr2⟩ :=
        addTargetEdge_general hI1.graph v n f
      set s2 := addTargetEdge v n s1 f with hs2
      have hstatn : IsStaticSite C n := ⟨sh, f, hk, hst⟩
      have hne : ∀ m d, icLookup s.indirectCalls m = some d → m ≠ n := by
        intro m d hm hmn
        subst hmn
        exact static_indirect_disjoint hstatn (hI.recIndirect m d hm)
      have hI2 : Inv C A s2 := by
        refine ⟨hg2, ?_, ?_, ?_, ?_, ?_, ?_⟩
        · intro m d hm
          rw [hic2] at hm
          rw [hvis2]
          exact hI1.parentVisited m d hm
        · intro m d hm
          rw [hic2] at hm
          obtain ⟨w, hw⟩ := Option.isSome_iff_exists.mp
            (hI1.parentVertex m d hm)
          rw [hx2.fvm _ w hw]
          rfl
        · intro m d hm
          rw [hic2] at hm
          exact hI1.recIndirect m d hm
        · intro e he
          rw [hE2] at he
          rcases List.mem_append.mp he with hm | hm
          · rcases hI1.edgeCs e hm with h | h
            · exact Or.inl h
            · right; rwa [hic2]
          · left
            rw [(hlbl2 e hm).2]
            exact hstatn
        · intro m d hm
          rw [hic2] at hm
          obtain ⟨w, hw⟩ := Option.isSome_iff_exists.mp
            (hI1.parentVertex m d hm)
          have hmn : m ≠ n := hne m d hm
          rw [siteEdgeCount_eq (hx2.fvm _ w hw),
            siteTgtFnsAt_stable hx2 hI1.graph hE2
              (fun e he => (hlbl2 e he).2) hmn, ← siteEdgeCount_eq hw]
          exact hI1.countEq m d hm
        · intro m d hm f' hf'
          rw [hic2] at hm
          obtain ⟨w, hw⟩ := Option.isSome_iff_exists.mp
            (hI1.parentVertex m d hm)
          have hmn : m ≠ n := hne m d hm
          rw [siteTgtFns_eq (hx2.fvm _ w hw),
            siteTgtFnsAt_stable hx2 hI1.graph hE2
              (fun e he => (hlbl2 e he).2) hmn] at hf'
          exact hI1.tgtsSub m d hm f' (by rwa [siteTgtFns_eq hw])
      have hxA : StExtends s s1 :=
        ⟨⟨[], (List.append_nil _).symm⟩, ⟨[], (List.append_nil _).symm⟩,
          fun _ _ h => h⟩
      have hxB : StExtends s2 (addTrace s2 [HookEvent.postCall n]) :=
        ⟨⟨[], (List.append_nil _).symm⟩, ⟨[], (List.append_nil _).symm⟩,
          fun _ _ h => h⟩
      refine ⟨?_, ?_, ?_, ?_, ?_, ?_, ?_⟩
      · exact ⟨⟨hI2.graph.keyVal, hI2.graph.vertNodup,
          hI2.graph.freshAbsent, hI2.graph.edgeTgtLt,
          hI2.graph.edgesNodup⟩, hI2.parentVisited, hI2.parentVertex,
          hI2.recIndirect, hI2.edgeCs, hI2.countEq, hI2.tgtsSub⟩
      · exact StExtends.trans hxA (StExtends.trans hx2 hxB)
      · intro m hm
        show (icLookup s2.indirectCalls m).isSome
        rwa [hic2]
      · show s2.visitedFunctions = s.visitedFunctions
        rw [hvis2]
        rfl
      · show lookupFvm s2.functionVertexMap F = some v
        exact hx2.fvm F v hv
      · intro m d hm hmF
        have hm' : icLookup s2.indirectCalls m = some d := hm
        rw [hic2] at hm'
        exact hzero m d hm' hmF
      · intro m d hm
        show icLookup s2.indirectCalls m = some d
        rw [hic2]
        exact hm
    | none =>
      cases hasm : sh.strippedIsInlineAsm with
      | true =>
        rw [processInst_asm_eq v fx s hk hst hasm]
        exact ⟨⟨⟨hI.graph.keyVal, hI.graph.vertNodup, hI.graph.freshAbsent,
          hI.graph.edgeTgtLt, hI.graph.edgesNodup⟩, hI.parentVisited,
          hI.parentVertex, hI.recIndirect, hI.edgeCs, hI.countEq,
          hI.tgtsSub⟩,
          ⟨⟨[], (List.append_nil _).symm⟩, ⟨[], (List.append_nil _).symm⟩,
            fun _ _ h => h⟩, fun _ h => h, rfl, hv, hzero, fun _ _ h => h⟩
      | false =>
        rw [processInst_indirect_eq v fx s hk hst hasm]
        have hind : IsIndirectSite C n := ⟨sh, hk, hst, hasm⟩
        have hcount0 : siteEdgeCount C s n = 0 := by
          cases hr : icLookup s.indirectCalls n with
          | none =>
            rw [siteEdgeCount, siteOutEdges_nil hI hind hr]
            rfl
          | some d =>
            have hd : d = 0 := hzero n d hr hpar
            subst hd
            exact hI.countEq n 0 hr
        have htf : siteTgtFns C s n = [] := by
          rw [siteTgtFns]
          have h0 : (siteOutEdges C s n).length = 0 := hcount0
          rw [List.length_eq_zero.mp h0]
          rfl
        refine ⟨⟨⟨hI.graph.keyVal, hI.graph.vertNodup, hI.graph.freshAbsent,
          hI.graph.edgeTgtLt, hI.graph.edgesNodup⟩, ?_, ?_, ?_, ?_, ?_, ?_⟩,
          ⟨⟨[], (List.append_nil _).symm⟩, ⟨[], (List.append_nil _).symm⟩,
            fun _ _ h => h⟩, ?_, rfl, hv, ?_, ?_⟩
        · intro m d hm
          have hm' : icLookup (icSet s.indirectCalls n 0) m = some d := hm
          show C.irdb.instParent m ∈ s.visitedFunctions
          by_cases hmn : m = n
          · subst hmn
            rw [hpar]
            exact hvisF
          · rw [icLookup_icSet_ne _ _ hmn] at hm'
            exact hI.parentVisited m d hm'
        · intro m d hm
          have hm' : icLookup (icSet s.indirectCalls n 0) m = some d := hm
          show (lookupFvm s.functionVertexMap (C.irdb.instParent m)).isSome
          by_cases hmn : m = n
          · subst hmn
            rw [hpar, hv]
            rfl
          · rw [icLookup_icSet_ne _ _ hmn] at hm'
            exact hI.parentVertex m d hm'
        · intro m d hm
          have hm' : icLookup (icSet s.indirectCalls n 0) m = some d := hm
          by_cases hmn : m = n
          · subst hmn
            exact hind
          · rw [icLookup_icSet_ne _ _ hmn] at hm'
            exact hI.recIndirect m d hm'
        · intro e he
          have he' : e ∈ s.cg.edges := he
          show IsStaticSite C e.cs ∨
            (icLookup (icSet s.indirectCalls n 0) e.cs).isSome
          rcases hI.edgeCs e he' with h | h
          · exact Or.inl h
          · right
            by_cases hmn : e.cs = n
            · rw [hmn, icLookup_icSet_self]
              rfl
            · rwa [icLookup_icSet_ne _ _ hmn]
        · intro m d hm
          have hm' : icLookup (icSet s.indirectCalls n 0) m = some d := hm
          show siteEdgeCount C s m = d
          by_cases hmn : m = n
          · subst hmn
            rw [icLookup_icSet_self] at hm'
            rw [(Option.some.inj hm').symm]
            exact hcount0
          · rw [icLookup_icSet_ne _ _ hmn] at hm'
            exact hI.countEq m d hm'
        · intro m d hm f hf
          have hm' : icLookup (icSet s.indirectCalls n 0) m = some d := hm
          have hf' : f ∈ siteTgtFns C s m := hf
          by_cases hmn : m = n
          · subst hmn
            rw [htf] at hf'
            exact absurd hf' (by simp)
          · rw [icLookup_icSet_ne _ _ hmn] at hm'
            exact hI.tgtsSub m d hm' f hf'
        · intro m hm
          show (icLookup (icSet s.indirectCalls n 0) m).isSome
          by_cases hmn : m = n
          · rw [hmn, icLookup_icSet_self]
            rfl
          · rwa [icLookup_icSet_ne _ _ hmn]
        · intro m d hm hmF
          have hm' : icLookup (icSet s.indirectCalls n 0) m = some d := hm
          by_cases hmn : m = n
          · subst hmn
            rw [icLookup_icSet_self] at hm'
            exact (Option.some.inj hm').symm
          · rw [icLookup_icSet_ne _ _ hmn] at hm'
            exact hzero m d hm' hmF
        · intro m d hm
          show icLookup (icSet s.indirectCalls n 0) m = some d
          by_cases hmn : m = n
          · subst hmn
            have hd : d = 0 := hzero m d hm hpar
            subst hd
            exact icLookup_icSet_self _ _ _
          · rw [icLookup_icSet_ne _ _ hmn]
            exact hm

theorem inv_processInst_fold {C : Ctx} {A : Inst → List Func} {F : Func}
    {v : vertex_t} :
    ∀ (ns : List Inst) (fx : Bool) (s : BuilderState),
    (∀ n ∈ ns, C.irdb.instParent n = F) →
    Inv C A s → F ∈ s.visitedFunctions →
    lookupFvm s.functionVertexMap F = some v →
    (∀ m d, icLookup s.indirectCalls m = some d →
      C.irdb.instParent m = F → d = 0) →
    Inv C A (ns.foldl (processInst C v) (fx, s)).2 ∧
    StExtends s (ns.foldl (processInst C v) (fx, s)).2 ∧
    (∀ m, (icLookup s.indirectCalls m).isSome →
      (icLookup (ns.foldl (processInst C v) (fx, s)).2.indirectCalls
        m).isSome) ∧
    (ns.foldl (processInst C v) (fx, s)).2.visitedFunctions =
      s.visitedFunctions ∧
    (∀ m d, icLookup s.indirectCalls m = some d →
      icLookup (ns.foldl (processInst C v) (fx, s)).2.indirectCalls m =
        some d) := by
  intro ns
  induction ns with
  | nil =>
    intro fx s _ hI _ _ _
    exact ⟨hI, StExtends.rfl s, fun _ h => h, rfl, fun _ _ h => h⟩
  | cons n rest ih =>
    intro fx s hpar hI hvisF hv hzero
    obtain ⟨hI', hx', hkey', hvis', hv', hzero', hval'⟩ :=
      inv_processInst hI hvisF hv hzero (hpar n (List.mem_cons_self n rest))
    have hfold : (n :: rest).foldl (processInst C v) (fx, s) =
        rest.foldl (processInst C v) (processInst C v (fx, s) n) := rfl
    rw [hfold]
    obtain ⟨ihI, ihx, ihkey, ihvis, ihval⟩ := ih (processInst C v (fx, s) n).1
      (processInst C v (fx, s) n).2
      (fun m hm => hpar m (List.mem_cons_of_mem n hm)) hI'
      (hvis' ▸ hvisF) hv' hzero'
    have hpair : ((processInst C v (fx, s) n).1,
        (processInst C v (fx, s) n).2) = processInst C v (fx, s) n := rfl
    rw [hpair] at ihI ihx ihkey ihvis ihval
    exact ⟨ihI, StExtends.trans hx' ihx,
      fun m hm => ihkey m (hkey' m hm), ihvis.trans hvis',
      fun m d hm => ihval m d (hval' m d hm)⟩

/-- `processFunction` preserves the construction invariant, only extends the
graph, never drops recorded sites, and only appends to the visited set. -/
theorem inv_processFunction {C : Ctx} {A : Inst → List Func}
    {st : BuilderState} (F : Func) (hWF : WFProg C) (hI : Inv C A st) :
    Inv C A (processFunction C st F).2 ∧
    StExtends st (processFunction C st F).2 ∧
    (∀ m, (icLookup st.indirectCalls m).isSome →
      (icLookup (processFunction C st F).2.indirectCalls m).isSome) ∧
    (∀ f, f ∈ st.visitedFunctions →
      f ∈ (processFunction C st F).2.visitedFunctions) ∧
    (∀ m d, icLookup st.indirectCalls m = some d →
      icLookup (processFunction C st F).2.indirectCalls m = some d) := by
  rw [processFunction]
  by_cases hskip : C.irdb.isDeclaration F || F ∈ st.visitedFunctions
  · rw [if_pos hskip]
    exact ⟨hI, StExtends.rfl st, fun _ h => h, fun _ h => h, fun _ _ h => h⟩
  · rw [if_neg hskip]
    have hFnotvis : F ∉ st.visitedFunctions := by
      intro hmem
      exact hskip (by simp [hmem])
    set st0 : BuilderState :=
      { st with visitedFunctions := st.visitedFunctions ++ [F] } with hst0
    have hI0 : Inv C A st0 := by
      refine inv_extend_graphonly hI
        ⟨hI.graph.keyVal, hI.graph.vertNodup, hI.graph.freshAbsent,
          hI.graph.edgeTgtLt, hI.graph.edgesNodup⟩
        ⟨⟨[], (List.append_nil _).symm⟩, ⟨[], (List.append_nil _).symm⟩,
          fun _ _ h => h⟩ rfl rfl ?_
      intro f hf
      exact List.mem_append.mpr (Or.inl hf)
    have hI1 : Inv C A (getOrAddVertex st0 F).2 := by
      obtain ⟨hE, hV, hW, hIc, hT⟩ := getOrAddVertex_fields st0 F
      refine inv_extend_graphonly hI0 (getOrAddVertex_graphInv hI0.graph F)
        (getOrAddVertex_extends st0 F) hE hIc ?_
      intro f hf
      rw [hV]
      exact hf
    have hvisF1 : F ∈ (getOrAddVertex st0 F).2.visitedFunctions := by
      obtain ⟨_, hV, _, _, _⟩ := getOrAddVertex_fields st0 F
      rw [hV]
      exact List.mem_append.mpr (Or.inr (List.mem_singleton.mpr rfl))
    have hv1 : lookupFvm (getOrAddVertex st0 F).2.functionVertexMap F =
        some (getOrAddVertex st0 F).1 := getOrAddVertex_lookup_self st0 F
    have hzero1 : ∀ m d,
        icLookup (getOrAddVertex st0 F).2.indirectCalls m = some d →
        C.irdb.instParent m = F → d = 0 := by
      obtain ⟨_, _, _, hIc, _⟩ := getOrAddVertex_fields st0 F
      intro m d hm hmF
      rw [hIc] at hm
      have hvisold : C.irdb.instParent m ∈ st.visitedFunctions :=
        hI.parentVisited m d hm
      rw [hmF] at hvisold
      exact absurd hvisold hFnotvis
    obtain ⟨ihI, ihx, ihkey, ihvis, ihval⟩ :=
      inv_processInst_fold (C.irdb.instructions F) true
        (getOrAddVertex st0 F).2 (fun n hn => hWF F n hn) hI1 hvisF1 hv1
        hzero1
    refine ⟨ihI, ?_, ?_, ?_, ?_⟩
    · refine StExtends.trans ?_ (StExtends.trans
        (getOrAddVertex_extends st0 F) ihx)
      exact ⟨⟨[], (List.append_nil _).symm⟩, ⟨[], (List.append_nil _).symm⟩,
        fun _ _ h => h⟩
    · intro m hm
      apply ihkey
      obtain ⟨_, _, _, hIc, _⟩ := getOrAddVertex_fields st0 F
      rw [hIc]
      exact hm
    · intro f hf
      rw [ihvis]
      obtain ⟨_, hV, _, _, _⟩ := getOrAddVertex_fields st0 F
      rw [hV]
      exact List.mem_append.mpr (Or.inl hf)
    · intro m d hm
      apply ihval
      obtain ⟨_, _, _, hIc, _⟩ := getOrAddVertex_fields st0 F
      rw [hIc]
      exact hm

theorem icLookup_isSome_of_mem_keys {l : List (Inst × Nat)} {m : Inst}
    (h : m ∈ l.map Prod.fst) : (icLookup l m).isSome := by
  induction l with
  | nil => simp at h
  | cons p rest ih =>
    rw [icLookup]
    by_cases hp : p.1 = m
    · rw [if_pos hp]; rfl
    · rw [if_neg hp]
      apply ih
      rcases List.mem_map.mp h with ⟨q, hq, hqm⟩
      rcases List.mem_cons.mp hq with h1 | h1
      · exact absurd (h1 ▸ hqm) hp
      · exact List.mem_map.mpr ⟨q, h1, hqm⟩

theorem inv_initState (C : Ctx) (A : Inst → List Func) (seeds : List Func) :
    Inv C A (initState seeds) := by
  refine ⟨⟨?_, ?_, ?_, ?_, ?_⟩, ?_, ?_, ?_, ?_, ?_, ?_⟩
  · intro f v h
    simp [initState, lookupFvm] at h
  · exact List.nodup_nil
  · intro f _
    simp [initState]
  · intro e he
    simp [initState] at he
  · exact List.nodup_nil
  all_goals
    first
      | (intro n c h; simp [initState, icLookup] at h)
      | (intro e he; simp [initState] at he)

/-- The worklist-draining loop preserves the invariant and never drops
recorded sites. -/
theorem inv_drainWL {C : Ctx} {A : Inst → List Func} (hWF : WFProg C) :
    ∀ (fuel : Nat) (fx : Bool) (st : BuilderState) (r : Bool × BuilderState),
    Inv C A st → drainWL C fuel fx st = some r →
    Inv C A r.2 ∧ (∀ m, (icLookup st.indirectCalls m).isSome →
      (icLookup r.2.indirectCalls m).isSome) := by
  intro fuel
  induction fuel with
  | zero =>
    intro fx st r hI heq
    rw [drainWL] at heq
    by_cases hempty : st.functionWL.isEmpty
    · rw [if_pos hempty] at heq
      obtain rfl : (fx, st) = r := Option.some.inj heq
      exact ⟨hI, fun _ h => h⟩
    · rw [if_neg hempty] at heq
      exact absurd heq (by simp)
  | succ fuel ih =>
    intro fx st r hI heq
    rw [drainWL] at heq
    cases hL : st.functionWL.getLast? with
    | none =>
      rw [hL] at heq
      obtain rfl : (fx, st) = r := Option.some.inj heq
      exact ⟨hI, fun _ h => h⟩
    | some F =>
      rw [hL] at heq
      simp only at heq
      set st' : BuilderState :=
        { st with functionWL := st.functionWL.dropLast } with hst'
      have hI' : Inv C A st' :=
        ⟨⟨hI.graph.keyVal, hI.graph.vertNodup, hI.graph.freshAbsent,
          hI.graph.edgeTgtLt, hI.graph.edgesNodup⟩, hI.parentVisited,
          hI.parentVertex, hI.recIndirect, hI.edgeCs, hI.countEq,
          hI.tgtsSub⟩
      obtain ⟨pI, _, pkey, _⟩ := inv_processFunction (A := A) F hWF hI'
      obtain ⟨qI, qkey⟩ := ih (fx && (processFunction C st' F).1)
        (processFunction C st' F).2 r pI heq
      exact ⟨qI, fun m hm => qkey m (pkey m hm)⟩

/-- The indirect-call pass preserves the invariant and never drops recorded
sites, for any snapshot of recorded sites. -/
theorem inv_dynPass {C : Ctx} {R : Resolver}
    (hnd : ∀ m, (chosenAnswer C R m).Nodup) :
    ∀ (sites : List Inst) (fx : Bool) (st : BuilderState)
      (r : Bool × BuilderState),
    Inv C (chosenAnswer C R) st →
    (∀ cs ∈ sites, (icLookup st.indirectCalls cs).isSome) →
    dynPass C R sites fx st = some r →
    Inv C (chosenAnswer C R) r.2 ∧
    (∀ m, (icLookup st.indirectCalls m).isSome →
      (icLookup r.2.indirectCalls m).isSome) := by
  intro sites
  induction sites with
  | nil =>
    intro fx st r hI _ heq
    rw [dynPass] at heq
    obtain rfl : (fx, st) = r := Option.some.inj heq
    exact ⟨hI, fun _ h => h⟩
  | cons cs rest ih =>
    intro fx st r hI hrec heq
    rw [dynPass] at heq
    cases hc : constructDynamicCall C R st cs with
    | none =>
      rw [hc] at heq
      exact absurd heq (by simp)
    | some p =>
      rw [hc] at heq
      obtain ⟨pI, pkey⟩ := inv_constructDynamicCall hI hnd
        (hrec cs (List.mem_cons_self cs rest)) hc
      obtain ⟨qI, qkey⟩ := ih (fx && !p.1) p.2 r pI
        (fun m hm => pkey m (hrec m (List.mem_cons_of_mem cs hm))) heq
      exact ⟨qI, fun m hm => qkey m (pkey m hm)⟩

/-- The outer fixed-point loop: any terminating run starting from an
invariant state ends in an invariant state (for the answers of some later
pass). -/
theorem inv_buildLoop {C : Ctx} {RSeq : Nat → Resolver} (hWF : WFProg C)
    (hnd : ∀ i m, (chosenAnswer C (RSeq i) m).Nodup)
    (hmono : ∀ i j m f, i ≤ j → f ∈ chosenAnswer C (RSeq i) m →
      f ∈ chosenAnswer C (RSeq j) m) :
    ∀ (fuel wlFuel i : Nat) (st final : BuilderState),
    Inv C (chosenAnswer C (RSeq i)) st →
    buildLoop C RSeq fuel wlFuel i st = some final →
    ∃ j, i ≤ j ∧ Inv C (chosenAnswer C (RSeq j)) final := by
  intro fuel
  induction fuel with
  | zero =>
    intro wlFuel i st final _ heq
    rw [buildLoop] at heq
    exact absurd heq (by simp)
  | succ fuel ih =>
    intro wlFuel i st final hI heq
    rw [buildLoop] at heq
    cases h1 : drainWL C wlFuel true st with
    | none =>
      rw [h1] at heq
      exact absurd heq (by simp)
    | some r1 =>
      rw [h1] at heq
      simp only at heq
      obtain ⟨I1, _⟩ := inv_drainWL hWF wlFuel true st r1 hI h1
      cases h2 : dynPass C (RSeq i) (r1.2.indirectCalls.map Prod.fst) r1.1
          r1.2 with
      | none =>
        rw [h2] at heq
        exact absurd heq (by simp)
      | some r2 =>
        rw [h2] at heq
        obtain ⟨I2, _⟩ := inv_dynPass (hnd i)
          (r1.2.indirectCalls.map Prod.fst) r1.1 r1.2 r2 I1
          (fun cs hcs => icLookup_isSome_of_mem_keys hcs) h2
        obtain ⟨b2, s2⟩ := r2
        cases b2 with
        | true =>
          simp only at heq
          obtain rfl : s2 = final := Option.some.inj heq
          exact ⟨i, Nat.le_refl i, I2⟩
        | false =>
          simp only at heq
          have I2' : Inv C (chosenAnswer C (RSeq (i + 1))) s2 :=
            inv_mono_answers I2
              (fun m f hf => hmono i (i + 1) m f (Nat.le_succ i) hf)
          obtain ⟨j, hij, hIj⟩ := ih wlFuel (i + 1) s2 final I2' heq
          exact ⟨j, Nat.le_trans (Nat.le_succ i) hij, hIj⟩

/-! ## Unconditional monotonicity: edges are only ever appended and stay
duplicate-free, counts only ever grow. -/

theorem addEdge_extend (cg : CallGraph) (e : Edge) :
    ∃ ext, (cg.addEdge e).edges = cg.edges ++ ext := by
  unfold CallGraph.addEdge
  by_cases h : e ∈ cg.edges
  · exact ⟨[], by rw [if_pos h, List.append_nil]⟩
  · exact ⟨[e], by rw [if_neg h]⟩

theorem addEdge_nodup {cg : CallGraph} (h : cg.edges.Nodup) (e : Edge) :
    (cg.addEdge e).edges.Nodup := by
  unfold CallGraph.addEdge
  by_cases hm : e ∈ cg.edges
  · rwa [if_pos hm]
  · rw [if_neg hm]
    simp [List.nodup_append, h, hm]

theorem addTargetEdge_any (v : vertex_t) (cs : Inst) (st : BuilderState)
    (f : Func) :
    (∃ ext, (addTargetEdge v cs st f).cg.edges = st.cg.edges ++ ext) ∧
    ((addTargetEdge v cs st f).cg.edges.Nodup ∨ ¬ st.cg.edges.Nodup) ∧
    (addTargetEdge v cs st f).indirectCalls = st.indirectCalls ∧
    (addTargetEdge v cs st f).trace = st.trace ∧
    (addTargetEdge v cs st f).visitedFunctions = st.visitedFunctions := by
  rw [addTargetEdge_def]
  obtain ⟨hE, hV, _, hIc, hT⟩ := getOrAddVertex_fields st f
  refine ⟨?_, ?_, hIc, hT, hV⟩
  · obtain ⟨ext, hext⟩ := addEdge_extend (getOrAddVertex st f).2.cg
      ⟨v, (getOrAddVertex st f).1, cs⟩
    exact ⟨ext, by rw [hext, hE]⟩
  · by_cases hnd : st.cg.edges.Nodup
    · left
      apply addEdge_nodup
      rwa [hE]
    · exact Or.inr hnd

theorem addTargets_any (v : vertex_t) (cs : Inst) :
    ∀ (fs : List Func) (st : BuilderState),
    (∃ ext, (addTargets v cs st fs).cg.edges = st.cg.edges ++ ext) ∧
    ((addTargets v cs st fs).cg.edges.Nodup ∨ ¬ st.cg.edges.Nodup) ∧
    (addTargets v cs st fs).indirectCalls = st.indirectCalls ∧
    (addTargets v cs st fs).trace = st.trace ∧
    (addTargets v cs st fs).visitedFunctions = st.visitedFunctions := by
  intro fs
  induction fs with
  | nil =>
    intro st
    exact ⟨⟨[], (List.append_nil _).symm⟩, by
      by_cases h : st.cg.edges.Nodup
      · exact Or.inl (by rwa [show (addTargets v cs st []).cg = st.cg
          from rfl])
      · exact Or.inr h, rfl, rfl, rfl⟩
  | cons f rest ih =>
    intro st
    obtain ⟨⟨e1, he1⟩, hn1, hic1, htr1, hv1⟩ := addTargetEdge_any v cs st f
    obtain ⟨⟨e2, he2⟩, hn2, hic2, htr2, hv2⟩ :=
      ih (addTargetEdge v cs st f)
    have hstep : addTargets v cs st (f :: rest) =
        addTargets v cs (addTargetEdge v cs st f) rest := rfl
    rw [hstep]
    refine ⟨⟨e1 ++ e2, by rw [he2, he1, List.append_assoc]⟩, ?_,
      hic2.trans hic1, htr2.trans htr1, hv2.trans hv1⟩
    by_cases h : st.cg.edges.Nodup
    · rcases hn1 with h1 | h1
      · rcases hn2 with h2 | h2
        · exact Or.inl h2
        · exact absurd h1 h2
      · exact absurd h h1
    · exact Or.inr h

theorem processInst_mono (C : Ctx) (v : vertex_t) (acc : Bool × BuilderState)
    (n : Inst) :
    (∃ ext, (processInst C v acc n).2.cg.edges = acc.2.cg.edges ++ ext) ∧
    ((processInst C v acc n).2.cg.edges.Nodup ∨ ¬ acc.2.cg.edges.Nodup) ∧
    ((processInst C v acc n).2.visitedFunctions = acc.2.visitedFunctions) := by
  obtain ⟨fx, s⟩ := acc
  cases hk : C.irdb.instKind n with
  | other =>
    rw [processInst_other_eq v fx s hk]
    refine ⟨⟨[], (List.append_nil _).symm⟩, ?_, rfl⟩
    by_cases h : s.cg.edges.Nodup
    · exact Or.inl h
    · exact Or.inr h
  | callBase sh =>
    cases hst : staticTarget C.irdb sh with
    | some f =>
      rw [processInst_static_eq v fx s hk hst]
      obtain ⟨⟨ext, hext⟩, hnd, _, _, hvis⟩ := addTargetEdge_any v n
        (addTrace (addTrace s [.preCall n]) [.handlePossibleTargets n]) f
      exact ⟨⟨ext, hext⟩, hnd, hvis⟩
    | none =>
      cases hasm : sh.strippedIsInlineAsm with
      | true =>
        rw [processInst_asm_eq v fx s hk hst hasm]
        refine ⟨⟨[], (List.append_nil _).symm⟩, ?_, rfl⟩
        by_cases h : s.cg.edges.Nodup
        · exact Or.inl h
        · exact Or.inr h
      | false =>
        rw [processInst_indirect_eq v fx s hk hst hasm]
        refine ⟨⟨[], (List.append_nil _).symm⟩, ?_, rfl⟩
        by_cases h : s.cg.edges.Nodup
        · exact Or.inl h
        · exact Or.inr h

theorem processInst_fold_mono (C : Ctx) (v : vertex_t) :
    ∀ (ns : List Inst) (acc : Bool × BuilderState),
    (∃ ext, (ns.foldl (processInst C v) acc).2.cg.edges =
      acc.2.cg.edges ++ ext) ∧
    ((ns.foldl (processInst C v) acc).2.cg.edges.Nodup ∨
      ¬ acc.2.cg.edges.Nodup) := by
  intro ns
  induction ns with
  | nil =>
    intro acc
    refine ⟨⟨[], (List.append_nil _).symm⟩, ?_⟩
    by_cases h : acc.2.cg.edges.Nodup
    · exact Or.inl h
    · exact Or.inr h
  | cons n rest ih =>
    intro acc
    obtain ⟨⟨e1, he1⟩, hn1, _⟩ := processInst_mono C v acc n
    obtain ⟨⟨e2, he2⟩, hn2⟩ := ih (processInst C v acc n)
    have hstep : (n :: rest).foldl (processInst C v) acc =
        rest.foldl (processInst C v) (processInst C v acc n) := rfl
    rw [hstep]
    refine ⟨⟨e1 ++ e2, by rw [he2, he1, List.append_assoc]⟩, ?_⟩
    by_cases h : acc.2.cg.edges.Nodup
    · rcases hn1 with h1 | h1
      · rcases hn2 with h2 | h2
        · exact Or.inl h2
        · exact absurd h1 h2
      · exact absurd h h1
    · exact Or.inr h

/-- `processFunction` only appends edges and keeps them duplicate-free. -/
theorem processFunction_mono (C : Ctx) (st : BuilderState) (F : Func) :
    (∃ ext, (processFunction C st F).2.cg.edges = st.cg.edges ++ ext) ∧
    (st.cg.edges.Nodup → (processFunction C st F).2.cg.edges.Nodup) := by
  rw [processFunction]
  by_cases hskip : C.irdb.isDeclaration F || F ∈ st.visitedFunctions
  · rw [if_pos hskip]
    exact ⟨⟨[], (List.append_nil _).symm⟩, fun h => h⟩
  · rw [if_neg hskip]
    set st0 : BuilderState :=
      { st with visitedFunctions := st.visitedFunctions ++ [F] } with hst0
    obtain ⟨hE, _, _, _, _⟩ := getOrAddVertex_fields st0 F
    obtain ⟨⟨ext, hext⟩, hnd⟩ := processInst_fold_mono C
      (getOrAddVertex st0 F).1 (C.irdb.instructions F)
      (true, (getOrAddVertex st0 F).2)
    refine ⟨⟨ext, by rw [hext, hE]⟩, ?_⟩
    intro h
    rcases hnd with h1 | h1
    · exact h1
    · exact absurd (by rwa [hE]) h1

/-- `constructDynamicCall` only appends edges, keeps them duplicate-free, and
never decreases a recorded target count. -/
theorem constructDynamicCall_mono {C : Ctx} {R : Resolver}
    {st : BuilderState} {cs : Inst} {p : Bool × BuilderState}
    (heq : constructDynamicCall C R st cs = some p) :
    (∃ ext, p.2.cg.edges = st.cg.edges ++ ext) ∧
    (st.cg.edges.Nodup → p.2.cg.edges.Nodup) ∧
    (∀ m d, icLookup st.indirectCalls m = some d →
      ∃ d', icLookup p.2.indirectCalls m = some d' ∧ d ≤ d') := by
  rw [constructDynamicCall] at heq
  cases hv : lookupFvm st.functionVertexMap (C.irdb.instParent cs) with
  | none =>
    rw [hv] at heq
    exact absurd heq (by simp)
  | some v =>
    rw [hv] at heq
    cases hk : C.irdb.instKind cs with
    | other =>
      rw [hk] at heq
      simp only at heq
      obtain rfl : (false, addTrace st [.otherInst cs]) = p :=
        Option.some.inj heq
      exact ⟨⟨[], (List.append_nil _).symm⟩, fun h => h,
        fun m d hm => ⟨d, hm, Nat.le_refl d⟩⟩
    | callBase sh =>
      rw [hk] at heq
      simp only at heq
      rw [show (addTrace (addTrace st [HookEvent.preCall cs])
          [if internalIsVirtualFunctionCall C cs then
            HookEvent.resolveVirtualCall cs
            else HookEvent.resolveFunctionPointer cs]).indirectCalls =
          st.indirectCalls from rfl] at heq
      by_cases hlt : (icRef st.indirectCalls cs).1 <
          (if internalIsVirtualFunctionCall C cs then R.resolveVirtualCall cs
            else R.resolveFunctionPointer cs).length
      · rw [if_pos hlt] at heq
        obtain rfl := Option.some.inj heq
        obtain ⟨⟨ext, hext⟩, hnd, hic, _, _⟩ := addTargets_any v cs
          ((if internalIsVirtualFunctionCall C cs then
              R.resolveVirtualCall cs
              else R.resolveFunctionPointer cs).filter fun f =>
            decide (f ∉ siteTgtFnsAt
              { addTrace (addTrace st [.preCall cs])
                  [if internalIsVirtualFunctionCall C cs then
                    HookEvent.resolveVirtualCall cs
                    else HookEvent.resolveFunctionPointer cs] with
                  indirectCalls := icSet (icRef st.indirectCalls cs).2 cs
                    (if internalIsVirtualFunctionCall C cs then
                      R.resolveVirtualCall cs
                      else R.resolveFunctionPointer cs).length } v cs))
          (addTrace
            { addTrace (addTrace st [.preCall cs])
                [if internalIsVirtualFunctionCall C cs then
                  HookEvent.resolveVirtualCall cs
                  else HookEvent.resolveFunctionPointer cs] with
                indirectCalls := icSet (icRef st.indirectCalls cs).2 cs
                  (if internalIsVirtualFunctionCall C cs then
                    R.resolveVirtualCall cs
                    else R.resolveFunctionPointer cs).length }
            [.handlePossibleTargets cs])
        have hICeq : (addTrace (addTargets v cs
            (addTrace
              { addTrace (addTrace st [.preCall cs])
                  [if internalIsVirtualFunctionCall C cs then
                    HookEvent.resolveVirtualCall cs
                    else HookEvent.resolveFunctionPointer cs] with
                  indirectCalls := icSet (icRef st.indirectCalls cs).2 cs
                    (if internalIsVirtualFunctionCall C cs then
                      R.resolveVirtualCall cs
                      else R.resolveFunctionPointer cs).length }
              [.handlePossibleTargets cs])
            ((if internalIsVirtualFunctionCall C cs then
                R.resolveVirtualCall cs
                else R.resolveFunctionPointer cs).filter fun f =>
              decide (f ∉ siteTgtFnsAt
                { addTrace (addTrace st [.preCall cs])
                    [if internalIsVirtualFunctionCall C cs then
                      HookEvent.resolveVirtualCall cs
                      else HookEvent.resolveFunctionPointer cs] with
                    indirectCalls := icSet (icRef st.indirectCalls cs).2 cs
                      (if internalIsVirtualFunctionCall C cs then
                        R.resolveVirtualCall cs
                        else R.resolveFunctionPointer cs).length } v cs)))
            [HookEvent.postCall cs]).indirectCalls =
            icSet (icRef st.indirectCalls cs).2 cs
              (if internalIsVirtualFunctionCall C cs then
                R.resolveVirtualCall cs
                else R.resolveFunctionPointer cs).length := by
          rw [addTrace_indirectCalls, hic]
          rfl
        refine ⟨⟨ext, hext⟩, ?_, ?_⟩
        · intro h
          rcases hnd with h1 | h1
          · exact h1
          · exact absurd h h1
        · intro m d hm
          by_cases hmcs : m = cs
          · subst hmcs
            refine ⟨(if internalIsVirtualFunctionCall C m then
                R.resolveVirtualCall m
                else R.resolveFunctionPointer m).length, ?_, ?_⟩
            · rw [hICeq]
              exact icLookup_icSet_self _ _ _
            · have hr1 : (icRef st.indirectCalls m).1 = d := by
                rw [icRef_of_some hm]
              exact Nat.le_of_lt (hr1 ▸ hlt)
          · refine ⟨d, ?_, Nat.le_refl d⟩
            rw [hICeq, icLookup_icSet_ne _ _ hmcs, icLookup_icRef_ne _ hmcs]
            exact hm
      · rw [if_neg hlt] at heq
        obtain rfl := Option.some.inj heq
        refine ⟨⟨[], (List.append_nil _).symm⟩, fun h => h, ?_⟩
        intro m d hm
        by_cases hmcs : m = cs
        · subst hmcs
          refine ⟨d, ?_, Nat.le_refl d⟩
          show icLookup (icRef st.indirectCalls m).2 m = some d
          rw [icRef_of_some hm]
          exact hm
        · refine ⟨d, ?_, Nat.le_refl d⟩
          show icLookup (icRef st.indirectCalls cs).2 m = some d
          rw [icLookup_icRef_ne _ hmcs]
          exact hm

/-! ## A small concrete program driving the verification witnesses -/

/-- Demo IRDB: function `10` ("main", a definition) holds the single
instruction `0`, an indirect call; function `20` ("h") is a declaration. -/
def demoIrdb : IRDB :=
  { allFunctions := [10, 20]
    isDeclaration := fun f => f == 20
    hasName := fun _ => true
    funcName := fun f => if f = 10 then "main" else "h"
    getFunctionDefinition := fun s => if s = "main" then some 10 else none
    getFunction := fun _ => none
    instructions := fun f => if f = 10 then [0] else []
    instParent := fun _ => 10
    instKind := fun n =>
      if n = 0 then .callBase ⟨none, none, false⟩ else .other }

/-- Demo context: no receiver types, so no site is a virtual call. -/
def demoCtx : Ctx :=
  { irdb := demoIrdb
    getReceiverType := fun _ => none
    getVFTIndex := fun _ => -1
    hasType := fun _ => false
    hasVFTable := fun _ => false }

/-- Demo resolver: function-pointer sites resolve to `{20}`. -/
def demoRes : Resolver :=
  { resolveVirtualCall := fun _ => []
    resolveFunctionPointer := fun _ => [20] }

theorem demoWF : WFProg demoCtx := by
  intro f n h
  by_cases hf : f = 10
  · subst hf
    simp [demoCtx, demoIrdb] at h
    subst h
    rfl
  · simp [demoCtx, demoIrdb, hf] at h

/-- The state `buildCallGraph` reaches on the demo program: two vertices, one
edge for the resolved indirect site, count `1` recorded for it. -/
def demoFinal : BuilderState :=
  { cg := { vertFunc := [10, 20], edges := [⟨0, 1, 0⟩] },
    functionVertexMap := [(10, 0), (20, 1)],
    visitedFunctions := [10],
    functionWL := [],
    indirectCalls := [(0, 1)],
    trace := [.preCall 0, .preCall 0, .resolveFunctionPointer 0,
      .handlePossibleTargets 0, .postCall 0, .preCall 0,
      .resolveFunctionPointer 0] }

theorem demoRun : buildCallGraph demoCtx (fun _ => demoRes) .Sound 5 5
    (initState [10]) = some demoFinal := by decide

/-! ## C10 -/

/-- C10: `MapFactsAlongsideCallSite::computeTargets` is the identity flow
function: for every zero-value test, call site, construction-time predicate
and dataflow fact, it returns exactly the singleton of the fact; in
particular its final kill branch (the empty set) is unreachable. -/
theorem c10_mapFactsAlongsideCallSite_identity
    (isLLVMZeroValue : Val → Bool) (CB : Inst)
    (Predicate : Inst → Val → Bool) (Source : Val) :
    computeTargetsAlongsideCallSite isLLVMZeroValue CB Predicate Source =
      [Source] := by
  rw [computeTargetsAlongsideCallSite]
  by_cases h1 : isLLVMZeroValue Source
  · by_cases h2 : Predicate CB Source
    · simp [h1, h2]
    · simp [h1, h2]
  · simp [h1]

/-! ## C6 -/

/-- C6: the virtual-call classification returns `true` iff the instruction is
call-like, a receiver type is identified, the type hierarchy knows the
receiver type, the type has a vtable, and the extracted vtable index is
non-negative; if any of the five conditions fails it returns `false`. -/
theorem c6_virtual_call_classification (C : Ctx) (n : Inst) :
    isVirtualFunctionCallImpl C n = true ↔
      ((∃ sh, C.irdb.instKind n = .callBase sh) ∧
        ∃ t, C.getReceiverType n = some t ∧ C.hasType t = true ∧
          C.hasVFTable t = true ∧ 0 ≤ C.getVFTIndex n) := by
  rw [isVirtualFunctionCallImpl]
  cases hk : C.irdb.instKind n with
  | other =>
    rw [internalIsVirtualFunctionCall, hk]
    simp
  | callBase sh =>
    rw [internalIsVirtualFunctionCall, hk]
    cases hr : C.getReceiverType n with
    | none => simp
    | some t =>
      by_cases h1 : C.hasType t
      · by_cases h2 : C.hasVFTable t
        · simp [h1, h2]
        · simp [h1, h2]
      · simp [h1]

/-! ## C9 -/

/-- Refutation of C9 as stated: with all other constructor inputs fixed, two
different `Soundness` values lead to identical arguments being passed to
`Resolver::create` — the resolver cannot observe the soundness tag, so the
tag is not "passed to the resolver". -/
theorem c9_counterexample :
    (llvmBasedICFGConstruct demoCtx (fun _ => demoRes) .CHA 1 (some 2) 3
      none .Sound [10] 5 5).resolverArgs =
    (llvmBasedICFGConstruct demoCtx (fun _ => demoRes) .CHA 1 (some 2) 3
      none .Unsound [10] 5 5).resolverArgs ∧
    Soundness.Sound ≠ Soundness.Unsound := by
  exact ⟨rfl, by decide⟩

/-- C9 (amended): the `Soundness` constructor parameter is accepted but
unused — `Resolver::create` is invoked without it and `buildCallGraph`
ignores it, so the entire observable construction (the resolver-creation
arguments and the built call graph) is identical for any two values. -/
theorem c9_soundness_unused (C : Ctx) (RSeq : Nat → Resolver)
    (cgType : CallGraphAnalysisType) (irdbRef : Nat) (thRef : Option Nat)
    (icfgRef : Nat) (ptRef : Option Nat) (seeds : List Func)
    (fuel wlFuel : Nat) (S S' : Soundness) :
    llvmBasedICFGConstruct C RSeq cgType irdbRef thRef icfgRef ptRef S seeds
      fuel wlFuel =
    llvmBasedICFGConstruct C RSeq cgType irdbRef thRef icfgRef ptRef S' seeds
      fuel wlFuel := rfl

/-! ## C7 -/

theorem initEntryPoints_fold (irdb : IRDB) :
    ∀ (eps : List String) (accL : List (Option Func)) (accW : List String),
    eps.foldl (fun acc ep =>
        match irdb.getFunctionDefinition ep with
        | none => (acc.1, acc.2 ++ [ep])
        | some f => (acc.1 ++ [some f], acc.2)) (accL, accW) =
      (accL ++ (eps.filterMap irdb.getFunctionDefinition).map some,
       accW ++ eps.filter fun s =>
         decide (irdb.getFunctionDefinition s = none)) := by
  intro eps
  induction eps with
  | nil => intro accL accW; simp
  | cons ep rest ih =>
    intro accL accW
    cases h : irdb.getFunctionDefinition ep with
    | none =>
      rw [List.foldl_cons]
      simp only [h]
      rw [ih accL (accW ++ [ep])]
      rw [List.filterMap_cons_none h, List.filter_cons_of_pos (by simp [h])]
      simp
    | some f =>
      rw [List.foldl_cons]
      simp only [h]
      rw [ih (accL ++ [some f]) accW]
      rw [List.filterMap_cons_some h,
        List.filter_cons_of_neg (by simp [h])]
      simp

/-- C7: entry-point initialization. With the single sentinel `__ALL__` (and
an IRDB whose definition lookup returns each named defined function), the
entries are exactly the named non-declaration functions of the IRDB. With
any other list, every name whose definition lookup fails is skipped with a
warning, and every other name contributes its definition, in order. -/
theorem c7_initEntryPoints (irdb : IRDB) (eps : List String) :
    (eps = ["__ALL__"] →
      (∀ f ∈ irdb.allFunctions.filter (fun f =>
          !irdb.isDeclaration f && irdb.hasName f),
        irdb.getFunctionDefinition (irdb.funcName f) = some f) →
      initEntryPoints irdb eps =
        ((irdb.allFunctions.filter fun f =>
            !irdb.isDeclaration f && irdb.hasName f).map some, [])) ∧
    (eps ≠ ["__ALL__"] →
      initEntryPoints irdb eps =
        ((eps.filterMap irdb.getFunctionDefinition).map some,
         eps.filter fun s =>
           decide (irdb.getFunctionDefinition s = none))) := by
  constructor
  · intro hall hlookup
    subst hall
    rw [initEntryPoints, if_pos rfl]
    congr 1
    rw [List.map_congr_left hlookup]
  · intro hne
    rw [initEntryPoints, if_neg hne]
    rw [initEntryPoints_fold irdb eps [] []]
    simp

/-! ## C8 -/

/-- C8: `getCalleesOfCallAt` returns exactly the target functions of the
out-edges of the instruction's enclosing function's vertex whose label equals
the instruction; a non-call instruction, or an enclosing function without a
vertex in `FunctionVertexMap`, yields the empty list (the query is a total
function — no error is raised). -/
theorem c8_getCalleesOfCallAt (C : Ctx) (cg : CallGraph)
    (fvm : List (Func × vertex_t)) (n : Inst) :
    (∀ f, f ∈ getCalleesOfCallAtImpl C cg fvm n ↔
      ((∃ sh, C.irdb.instKind n = .callBase sh) ∧
        ∃ v, lookupFvm fvm (C.irdb.instParent n) = some v ∧
          ∃ e, e ∈ cg.edges ∧ e.src = v ∧ e.cs = n ∧
            cg.vertFunc.getD e.tgt 0 = f)) ∧
    (C.irdb.instKind n = .other → getCalleesOfCallAtImpl C cg fvm n = []) ∧
    (lookupFvm fvm (C.irdb.instParent n) = none →
      getCalleesOfCallAtImpl C cg fvm n = []) := by
  refine ⟨?_, ?_, ?_⟩
  · intro f
    cases hk : C.irdb.instKind n with
    | other =>
      simp [getCalleesOfCallAtImpl, hk]
    | callBase sh =>
      cases hl : lookupFvm fvm (C.irdb.instParent n) with
      | none => simp [getCalleesOfCallAtImpl, hk, hl]
      | some v =>
        simp only [getCalleesOfCallAtImpl, hk, hl]
        constructor
        · intro hf
          obtain ⟨e, he, hfe⟩ := List.mem_map.mp hf
          obtain ⟨hee, hes, hec⟩ := mem_filter_site he
          exact ⟨⟨sh, rfl⟩, v, rfl, e, hee, hes, hec, hfe⟩
        · rintro ⟨-, v', hv', e, hee, hes, hec, hfe⟩
          obtain rfl : v = v' := Option.some.inj hv'
          apply List.mem_map.mpr
          exact ⟨e, List.mem_filter.mpr ⟨hee, by simp [hes, hec]⟩, hfe⟩
  · intro hk
    simp [getCalleesOfCallAtImpl, hk]
  · intro hl
    cases hk : C.irdb.instKind n with
    | other => simp [getCalleesOfCallAtImpl, hk]
    | callBase sh => simp [getCalleesOfCallAtImpl, hk, hl]

/-- Witness for C8 on the demo program's final graph: the single recorded
callee of the indirect site is function `20`, and a non-call instruction
yields the empty list. -/
theorem c8_witness :
    ((20 : Func) ∈ getCalleesOfCallAtImpl demoCtx demoFinal.cg
      demoFinal.functionVertexMap 0 ↔
      ((∃ sh, demoCtx.irdb.instKind 0 = .callBase sh) ∧
        ∃ v, lookupFvm demoFinal.functionVertexMap
            (demoCtx.irdb.instParent 0) = some v ∧
          ∃ e, e ∈ demoFinal.cg.edges ∧ e.src = v ∧ e.cs = 0 ∧
            demoFinal.cg.vertFunc.getD e.tgt 0 = 20)) ∧
    getCalleesOfCallAtImpl demoCtx demoFinal.cg
      demoFinal.functionVertexMap 1 = [] :=
  ⟨(c8_getCalleesOfCallAt demoCtx demoFinal.cg
      demoFinal.functionVertexMap 0).1 20,
   (c8_getCalleesOfCallAt demoCtx demoFinal.cg
      demoFinal.functionVertexMap 1).2.1 (by decide)⟩

/-- Witness for C7: on the demo IRDB, `__ALL__` yields the single named
definition `10`, and the list `["main", "nope"]` yields entry `10` with a
warning for `nope`. -/
theorem c7_witness :
    initEntryPoints demoIrdb ["__ALL__"] =
      (((demoIrdb.allFunctions.filter fun f =>
          !demoIrdb.isDeclaration f && demoIrdb.hasName f).map some), []) ∧
    initEntryPoints demoIrdb ["main", "nope"] =
      (((["main", "nope"].filterMap
          demoIrdb.getFunctionDefinition).map some),
       ["main", "nope"].filter fun s =>
         decide (demoIrdb.getFunctionDefinition s = none)) :=
  ⟨(c7_initEntryPoints demoIrdb ["__ALL__"]).1 rfl (by decide),
   (c7_initEntryPoints demoIrdb ["main", "nope"]).2 (by decide)⟩

/-! ## C1 -/

/-- C1: at termination of `buildCallGraph` — for any resolver oracle whose
answers are duplicate-free (the C++ resolver returns a set) and never shrink
across outer passes (the spec's monotone-growth contract of the resolver
family, §4.2) — every indirect call site `n` recorded in `IndirectCalls` has
exactly `IndirectCalls[n]` out-edges of its caller's vertex labelled `n`. -/
theorem c1_count_matches_edges (C : Ctx) (RSeq : Nat → Resolver)
    (S : Soundness) (fuel wlFuel : Nat) (seeds : List Func)
    (final : BuilderState) (hWF : WFProg C)
    (hnd : ∀ i m, (chosenAnswer C (RSeq i) m).Nodup)
    (hmono : ∀ i j m f, i ≤ j → f ∈ chosenAnswer C (RSeq i) m →
      f ∈ chosenAnswer C (RSeq j) m)
    (hrun : buildCallGraph C RSeq S fuel wlFuel (initState seeds) =
      some final)
    (n : Inst) (c : Nat) (hn : icLookup final.indirectCalls n = some c) :
    siteEdgeCount C final n = c := by
  obtain ⟨j, _, hInv⟩ := inv_buildLoop hWF hnd hmono fuel wlFuel 0
    (initState seeds) final (inv_initState C _ seeds) hrun
  exact hInv.countEq n c hn

/-- Witness for C1: the demo run terminates with `IndirectCalls[0] = 1` and
exactly one matching out-edge. -/
theorem c1_witness : siteEdgeCount demoCtx demoFinal 0 = 1 :=
  c1_count_matches_edges demoCtx (fun _ => demoRes) .Sound 5 5 [10]
    demoFinal demoWF
    (by
      intro i m
      by_cases h : internalIsVirtualFunctionCall demoCtx m <;>
        simp [chosenAnswer, h, demoRes])
    (fun _ _ _ _ _ hf => hf)
    demoRun 0 1 (by decide)

/-! ## C2 -/

/-- C2: on a recorded indirect `CallBase` site with prior count `c` and
duplicate-free resolver answer `T`: if `|T| ≤ c` the call reports "no new
targets" (`false`, after `preCall` and the resolve hook); otherwise it sets
the count to `|T|`, adds exactly one edge per target of `T` not already on an
edge of the caller's vertex for this site, pushes exactly those targets onto
the worklist, and reports "new targets found" (`true`). -/
theorem c2_constructDynamicCall_behaviour (C : Ctx) (R : Resolver)
    (st : BuilderState) (cs : Inst) (v : vertex_t) (c : Nat) (sh : CallShape)
    (hg : GraphInv st)
    (hv : lookupFvm st.functionVertexMap (C.irdb.instParent cs) = some v)
    (hsh : C.irdb.instKind cs = .callBase sh)
    (hrec : icLookup st.indirectCalls cs = some c)
    (hnd : (chosenAnswer C R cs).Nodup) :
    ((chosenAnswer C R cs).length ≤ c →
      constructDynamicCall C R st cs =
        some (false, addTrace st [.preCall cs, resolveEvent C cs])) ∧
    (c < (chosenAnswer C R cs).length →
      ∃ st', constructDynamicCall C R st cs = some (true, st') ∧
        icLookup st'.indirectCalls cs =
          some (chosenAnswer C R cs).length ∧
        (∃ newE, st'.cg.edges = st.cg.edges ++ newE ∧
          newE.length = ((chosenAnswer C R cs).filter fun f =>
            decide (f ∉ siteTgtFnsAt st v cs)).length ∧
          ∀ e ∈ newE, e.src = v ∧ e.cs = cs) ∧
        siteTgtFnsAt st' v cs = siteTgtFnsAt st v cs ++
          ((chosenAnswer C R cs).filter fun f =>
            decide (f ∉ siteTgtFnsAt st v cs)) ∧
        st'.functionWL = st.functionWL ++
          ((chosenAnswer C R cs).filter fun f =>
            decide (f ∉ siteTgtFnsAt st v cs))) := by
  constructor
  · intro hle
    exact constructDynamicCall_noNew hv hsh hrec hle
  · intro hgt
    obtain ⟨st', heq, _, hx, hic, _, hE, hsite, hwl, _⟩ :=
      constructDynamicCall_new_spec hg hv hsh hrec hnd hgt
    refine ⟨st', heq, ?_, hE, hsite, hwl⟩
    rw [hic]
    exact icLookup_icSet_self _ _ _

/-- The construction state of the demo program after `main` has been scanned:
the indirect site `0` is recorded with count `0`. -/
def stDemo1 : BuilderState := (processFunction demoCtx (initState [10]) 10).2

/-- The demo state after the first `constructDynamicCall` on site `0`: the
edge to `20` is added and the count becomes `1`. -/
def stDemo2 : BuilderState :=
  { cg := { vertFunc := [10, 20], edges := [⟨0, 1, 0⟩] },
    functionVertexMap := [(10, 0), (20, 1)],
    visitedFunctions := [10],
    functionWL := [10, 20],
    indirectCalls := [(0, 1)],
    trace := [.preCall 0, .preCall 0, .resolveFunctionPointer 0,
      .handlePossibleTargets 0, .postCall 0] }

theorem stDemo1_inv : Inv demoCtx (chosenAnswer demoCtx demoRes) stDemo1 :=
  (inv_processFunction 10 demoWF
    (inv_initState demoCtx (chosenAnswer demoCtx demoRes) [10])).1

/-- Witness for C2: from `stDemo1` (prior count `0`), the resolver answer
`[20]` makes `constructDynamicCall` record count `1`, add one edge and
enqueue `20`, returning `true`. -/
theorem c2_witness :
    (0 : Nat) < (chosenAnswer demoCtx demoRes 0).length ∧
    (∃ st', constructDynamicCall demoCtx demoRes stDemo1 0 =
        some (true, st') ∧
      icLookup st'.indirectCalls 0 =
        some (chosenAnswer demoCtx demoRes 0).length ∧
      (∃ newE, st'.cg.edges = stDemo1.cg.edges ++ newE ∧
        newE.length = ((chosenAnswer demoCtx demoRes 0).filter fun f =>
          decide (f ∉ siteTgtFnsAt stDemo1 0 0)).length ∧
        ∀ e ∈ newE, e.src = 0 ∧ e.cs = 0) ∧
      siteTgtFnsAt st' 0 0 = siteTgtFnsAt stDemo1 0 0 ++
        ((chosenAnswer demoCtx demoRes 0).filter fun f =>
          decide (f ∉ siteTgtFnsAt stDemo1 0 0)) ∧
      st'.functionWL = stDemo1.functionWL ++
        ((chosenAnswer demoCtx demoRes 0).filter fun f =>
          decide (f ∉ siteTgtFnsAt stDemo1 0 0))) :=
  ⟨by decide,
   (c2_constructDynamicCall_behaviour demoCtx demoRes stDemo1 0 0 0
      ⟨none, none, false⟩ stDemo1_inv.graph (by decide) (by decide)
      (by decide) (by decide)).2 (by decide)⟩

/-! ## C3 -/

/-- C3: monotonicity during construction. Neither `processFunction` nor
`constructDynamicCall` ever removes an edge (the edge list is only appended
to), and the per-site counts in `IndirectCalls` never decrease:
`processFunction` (run from a state satisfying the construction invariant)
leaves every recorded count unchanged, and `constructDynamicCall` only ever
raises a count. -/
theorem c3_monotonicity (C : Ctx) (A : Inst → List Func) (R : Resolver)
    (st : BuilderState) (F : Func) (cs : Inst) :
    (∃ ext, (processFunction C st F).2.cg.edges = st.cg.edges ++ ext) ∧
    (∀ p, constructDynamicCall C R st cs = some p →
      ∃ ext, p.2.cg.edges = st.cg.edges ++ ext) ∧
    (WFProg C → Inv C A st →
      ∀ m d, icLookup st.indirectCalls m = some d →
        icLookup (processFunction C st F).2.indirectCalls m = some d) ∧
    (∀ p, constructDynamicCall C R st cs = some p →
      ∀ m d, icLookup st.indirectCalls m = some d →
        ∃ d', icLookup p.2.indirectCalls m = some d' ∧ d ≤ d') := by
  refine ⟨(processFunction_mono C st F).1, ?_, ?_, ?_⟩
  · intro p hp
    exact (constructDynamicCall_mono hp).1
  · intro hWF hI m d hm
    exact (inv_processFunction F hWF hI).2.2.2.2 m d hm
  · intro p hp
    exact (constructDynamicCall_mono hp).2.2

/-- Witness for C3 on the demo program: scanning `main` only appends edges
and keeps the recorded count of site `0`, and the indirect resolution step
raises it from `0` to `1`. -/
theorem c3_witness :
    (∃ ext, (processFunction demoCtx stDemo1 20).2.cg.edges =
      stDemo1.cg.edges ++ ext) ∧
    icLookup (processFunction demoCtx stDemo1 20).2.indirectCalls 0 =
      some 0 ∧
    (∃ d', icLookup (true, stDemo2).2.indirectCalls 0 = some d' ∧
      0 ≤ d') :=
  ⟨(c3_monotonicity demoCtx (chosenAnswer demoCtx demoRes) demoRes stDemo1
      20 0).1,
   (c3_monotonicity demoCtx (chosenAnswer demoCtx demoRes) demoRes stDemo1
      20 0).2.2.1 demoWF stDemo1_inv 0 0 (by decide),
   (c3_monotonicity demoCtx (chosenAnswer demoCtx demoRes) demoRes stDemo1
      20 0).2.2.2 (true, stDemo2) (by decide) 0 0 (by decide)⟩

/-! ## C4 -/

/-- C4: the graph holds at most one edge per `(caller, callee, site)` triple:
adding an edge whose triple is already present leaves the graph unchanged,
both `processFunction` and `constructDynamicCall` preserve "every triple
occurs at most once", and under that bound two distinct stored edges between
the same pair of vertices carry distinct call sites. -/
theorem c4_duplicate_suppression (cg : CallGraph) (e : Edge) (C : Ctx)
    (R : Resolver) (st : BuilderState) (F : Func) (cs : Inst) :
    (e ∈ cg.edges → cg.addEdge e = cg) ∧
    (st.cg.edges.Nodup →
      ∀ e', (processFunction C st F).2.cg.edges.count e' ≤ 1) ∧
    (st.cg.edges.Nodup → ∀ p, constructDynamicCall C R st cs = some p →
      ∀ e', p.2.cg.edges.count e' ≤ 1) ∧
    (st.cg.edges.Nodup →
      ∀ (i j : Nat) (hi : i < st.cg.edges.length)
        (hj : j < st.cg.edges.length), i ≠ j →
        (st.cg.edges[i]).src = (st.cg.edges[j]).src →
        (st.cg.edges[i]).tgt = (st.cg.edges[j]).tgt →
        (st.cg.edges[i]).cs ≠ (st.cg.edges[j]).cs) := by
  refine ⟨?_, ?_, ?_, ?_⟩
  · intro hmem
    exact CallGraph.addEdge_of_mem hmem
  · intro hnd e'
    exact List.nodup_iff_count_le_one.mp
      ((processFunction_mono C st F).2 hnd) e'
  · intro hnd p hp e'
    exact List.nodup_iff_count_le_one.mp
      ((constructDynamicCall_mono hp).2.1 hnd) e'
  · intro hnd i j hi hj hij hsrc htgt hcs
    apply hij
    apply hnd.getElem_inj_iff.mp
    have : st.cg.edges[i] = st.cg.edges[j] := by
      cases hei : st.cg.edges[i]
      cases hej : st.cg.edges[j]
      rw [hei, hej] at hsrc htgt hcs
      simp_all
    exact this

/-- Witness for C4: on the demo final graph (duplicate-free), re-adding the
existing edge is a no-op, and both construction steps keep every triple
unique. -/
theorem c4_witness :
    demoFinal.cg.addEdge ⟨0, 1, 0⟩ = demoFinal.cg ∧
    (processFunction demoCtx demoFinal 20).2.cg.edges.count
      ⟨0, 1, 0⟩ ≤ 1 ∧
    (false, addTrace demoFinal [HookEvent.preCall 0,
      HookEvent.resolveFunctionPointer 0]).2.cg.edges.count ⟨0, 1, 0⟩ ≤ 1 :=
  ⟨(c4_duplicate_suppression demoFinal.cg ⟨0, 1, 0⟩ demoCtx demoRes
      demoFinal 20 0).1 (by decide),
   (c4_duplicate_suppression demoFinal.cg ⟨0, 1, 0⟩ demoCtx demoRes
      demoFinal 20 0).2.1 (by decide) ⟨0, 1, 0⟩,
   (c4_duplicate_suppression demoFinal.cg ⟨0, 1, 0⟩ demoCtx demoRes
      demoFinal 20 0).2.2.1 (by decide)
      (false, addTrace demoFinal [HookEvent.preCall 0,
        HookEvent.resolveFunctionPointer 0]) (by decide) ⟨0, 1, 0⟩⟩

/-! ## C5 -/

/-- Refutation of C5 as stated: in the terminated demo run, the site `0`
receives three `preCall` announcements but only one `postCall` — so not
every `preCall(n)` is eventually followed by a matching `postCall(n)`
(`processFunction` `continue`s after `preCall` on newly found indirect
sites, and the final `constructDynamicCall` pass returns right after the
resolve hook when no new targets are found). -/
theorem c5_counterexample :
    buildCallGraph demoCtx (fun _ => demoRes) .Sound 5 5 (initState [10]) =
      some demoFinal ∧
    demoFinal.trace.count (HookEvent.postCall 0) = 1 ∧
    demoFinal.trace.count (HookEvent.preCall 0) = 3 :=
  ⟨demoRun, by decide, by decide⟩

/-- The per-site trace of one `constructDynamicCall` invocation on a
recorded `CallBase` site: either the full hook sequence runs, or the call
stops right after the resolve hook (no new targets). -/
theorem constructDynamicCall_trace {C : Ctx} {R : Resolver}
    {st : BuilderState} {cs : Inst} {v : vertex_t} {c : Nat} {sh : CallShape}
    {p : Bool × BuilderState}
    (hv : lookupFvm st.functionVertexMap (C.irdb.instParent cs) = some v)
    (hsh : C.irdb.instKind cs = .callBase sh)
    (hrec : icLookup st.indirectCalls cs = some c)
    (hp : constructDynamicCall C R st cs = some p) :
    p.2.trace = st.trace ++ [.preCall cs, resolveEvent C cs] ∨
    p.2.trace = st.trace ++ [.preCall cs, resolveEvent C cs,
      .handlePossibleTargets cs, .postCall cs] := by
  by_cases hgt : c < (chosenAnswer C R cs).length
  · right
    rw [constructDynamicCall_new_eq hv hsh hrec hgt] at hp
    obtain rfl := Option.some.inj hp
    have htr := (addTargets_any v cs
      ((chosenAnswer C R cs).filter fun f =>
        decide (f ∉ siteTgtFnsAt st v cs))
      (addTrace
        { addTrace st [.preCall cs, resolveEvent C cs] with
            indirectCalls :=
              icSet st.indirectCalls cs (chosenAnswer C R cs).length }
        [.handlePossibleTargets cs])).2.2.2.1
    show (addTargets v cs (addTrace
        { addTrace st [.preCall cs, resolveEvent C cs] with
            indirectCalls :=
              icSet st.indirectCalls cs (chosenAnswer C R cs).length }
        [.handlePossibleTargets cs])
        ((chosenAnswer C R cs).filter fun f =>
          decide (f ∉ siteTgtFnsAt st v cs))).trace ++
      [HookEvent.postCall cs] = _
    rw [htr]
    show ((st.trace ++ [.preCall cs, resolveEvent C cs]) ++
      [HookEvent.handlePossibleTargets cs]) ++ [HookEvent.postCall cs] = _
    simp
  · left
    rw [constructDynamicCall_noNew hv hsh hrec (Nat.not_lt.mp hgt)] at hp
    obtain rfl := Option.some.inj hp
    rfl

/-- C5 (amended): resolver hooks are never reordered — each call-like
instruction's hooks happen in the relative order
`preCall → resolve* → handlePossibleTargets → postCall` and always start
with `preCall` — but the tail of the sequence may be omitted: in
`processFunction`, inline-assembly and newly discovered indirect sites
receive only `preCall`, and in `constructDynamicCall` a site whose resolver
answer brings no new targets receives only `preCall` and the resolve hook. -/
theorem c5_hook_order (C : Ctx) (v : vertex_t) (fx : Bool)
    (s : BuilderState) (n : Inst) (sh : CallShape) (R : Resolver)
    (st : BuilderState) (cs : Inst) (w : vertex_t) (c : Nat)
    (sh' : CallShape) (p : Bool × BuilderState) :
    (C.irdb.instKind n = .callBase sh →
      ∃ l, (processInst C v (fx, s) n).2.trace = s.trace ++ l ∧
        l.head? = some (.preCall n) ∧
        l.Sublist [.preCall n, .resolveVirtualCall n,
          .resolveFunctionPointer n, .handlePossibleTargets n,
          .postCall n]) ∧
    (lookupFvm st.functionVertexMap (C.irdb.instParent cs) = some w →
      C.irdb.instKind cs = .callBase sh' →
      icLookup st.indirectCalls cs = some c →
      constructDynamicCall C R st cs = some p →
      ∃ l, p.2.trace = st.trace ++ l ∧
        l.head? = some (.preCall cs) ∧
        l.Sublist [.preCall cs, .resolveVirtualCall cs,
          .resolveFunctionPointer cs, .handlePossibleTargets cs,
          .postCall cs]) := by
  constructor
  · intro hk
    cases hst : staticTarget C.irdb sh with
    | some f =>
      rw [processInst_static_eq v fx s hk hst]
      refine ⟨[.preCall n, .handlePossibleTargets n, .postCall n], ?_, rfl,
        ?_⟩
      · have htr := (addTargetEdge_any v n
          (addTrace (addTrace s [.preCall n])
            [.handlePossibleTargets n]) f).2.2.2.1
        show (addTargetEdge v n (addTrace (addTrace s [.preCall n])
          [.handlePossibleTargets n]) f).trace ++ [HookEvent.postCall n] = _
        rw [htr]
        show ((s.trace ++ [HookEvent.preCall n]) ++
          [HookEvent.handlePossibleTargets n]) ++ [HookEvent.postCall n] = _
        simp
      · apply List.Sublist.cons₂
        apply List.Sublist.cons
        apply List.Sublist.cons
        exact List.Sublist.refl _
    | none =>
      cases hasm : sh.strippedIsInlineAsm with
      | true =>
        rw [processInst_asm_eq v fx s hk hst hasm]
        refine ⟨[.preCall n], rfl, rfl, ?_⟩
        apply List.Sublist.cons₂
        exact List.nil_sublist _
      | false =>
        rw [processInst_indirect_eq v fx s hk hst hasm]
        refine ⟨[.preCall n], rfl, rfl, ?_⟩
        apply List.Sublist.cons₂
        exact List.nil_sublist _
  · intro hw hsh' hrec hp
    rcases constructDynamicCall_trace hw hsh' hrec hp with htr | htr
    · refine ⟨[.preCall cs, resolveEvent C cs], htr, rfl, ?_⟩
      apply List.Sublist.cons₂
      rw [resolveEvent]
      by_cases hvirt : internalIsVirtualFunctionCall C cs
      · rw [if_pos hvirt]
        apply List.Sublist.cons₂
        exact List.nil_sublist _
      · rw [if_neg hvirt]
        apply List.Sublist.cons
        apply List.Sublist.cons₂
        exact List.nil_sublist _
    · refine ⟨[.preCall cs, resolveEvent C cs, .handlePossibleTargets cs,
        .postCall cs], htr, rfl, ?_⟩
      apply List.Sublist.cons₂
      rw [resolveEvent]
      by_cases hvirt : internalIsVirtualFunctionCall C cs
      · rw [if_pos hvirt]
        apply List.Sublist.cons₂
        apply List.Sublist.cons
        exact List.Sublist.refl _
      · rw [if_neg hvirt]
        apply List.Sublist.cons
        apply List.Sublist.cons₂
        exact List.Sublist.refl _

/-- Witness for the amended C5: on the demo program, the indirect site `0`
gets only `preCall` from `processInst`, and a full ordered hook sequence
from the target-adding `constructDynamicCall`. -/
theorem c5_witness :
    (∃ l, (processInst demoCtx 0 (true,
        (getOrAddVertex { initState [10] with
          visitedFunctions := [10] } 10).2) 0).2.trace =
      (getOrAddVertex { initState [10] with
        visitedFunctions := [10] } 10).2.trace ++ l ∧
      l.head? = some (.preCall 0) ∧
      l.Sublist [.preCall 0, .resolveVirtualCall 0,
        .resolveFunctionPointer 0, .handlePossibleTargets 0, .postCall 0]) ∧
    (∃ l, (true, stDemo2).2.trace = stDemo1.trace ++ l ∧
      l.head? = some (.preCall 0) ∧
      l.Sublist [.preCall 0, .resolveVirtualCall 0,
        .resolveFunctionPointer 0, .handlePossibleTargets 0, .postCall 0]) :=
  ⟨(c5_hook_order demoCtx 0 true
      (getOrAddVertex { initState [10] with
        visitedFunctions := [10] } 10).2 0 ⟨none, none, false⟩ demoRes
      stDemo1 0 0 0 ⟨none, none, false⟩ (true, stDemo2)).1 (by decide),
   (c5_hook_order demoCtx 0 true
      (getOrAddVertex { initState [10] with
        visitedFunctions := [10] } 10).2 0 ⟨none, none, false⟩ demoRes
      stDemo1 0 0 0 ⟨none, none, false⟩ (true, stDemo2)).2 (by decide)
      (by decide) (by decide) (by decide)⟩

end Phasar
